import Mathlib

/-!
# syncora: passphrase-based key custody

A shallow embedding of `internal/core/crypto/crypto.go` and of the account
store of `internal/core/database/database.go`.

* Go byte slices and Go strings are lists of bytes (`Fin 256`).
* The cryptographic libraries the repository imports (Argon2id, the AES block
  function, HMAC-SHA256, secp256k1 key parsing and address derivation) are
  parameters, collected in `Prims`.
* `encoding/hex`, `strings.TrimPrefix` and the CFB stream mode are written out.
* Every function returns, next to its Go results, the list of operations it
  performed, in order (`Op`).
-/

namespace Syncora

/-! ## Bytes and strings -/

/-- One byte. -/
abbrev Byte := Fin 256

/-- A Go byte slice. -/
abbrev Bytes := List Byte

/-- A Go string: a sequence of bytes. -/
abbrev GoString := List Byte

/-- The bytes of an ASCII literal. -/
def ascii (s : String) : GoString :=
  s.toList.map (fun c => Fin.ofNat c.toNat)

/-- Bytewise exclusive or. -/
def xorByte (a b : Byte) : Byte :=
  ⟨Nat.xor a.val b.val % 256, Nat.mod_lt _ (by decide)⟩

/-! ## encoding/hex -/

/-- Errors of `encoding/hex`: `InvalidByteError` and `ErrLength`. -/
inductive HexError where
  | invalidByte (b : Byte)
  | length
  deriving DecidableEq, Repr

deriving instance DecidableEq for Except

/-- The table `hextable = "0123456789abcdef"`, indexed by a nibble. -/
def hextable (n : Nat) : Byte :=
  if n < 10 then Fin.ofNat (48 + n) else Fin.ofNat (97 + (n - 10))

/-- The function `hex.EncodeToString`: two lower-case digits per byte,
high nibble first. -/
def hexEncodeToString : Bytes → GoString
  | [] => []
  | v :: rest => hextable (v.val / 16) :: hextable (v.val % 16) :: hexEncodeToString rest

/-- The table `reverseHexTable`: the value of a hex digit of either case,
`none` for every other byte. -/
def reverseHexTable (c : Byte) : Option Nat :=
  if 48 ≤ c.val ∧ c.val ≤ 57 then some (c.val - 48)
  else if 97 ≤ c.val ∧ c.val ≤ 102 then some (c.val - 97 + 10)
  else if 65 ≤ c.val ∧ c.val ≤ 70 then some (c.val - 65 + 10)
  else none

/-- The function `hex.DecodeString`: pairs of digits, left to right; the first
invalid byte is reported, an odd length after that. -/
def hexDecodeString : GoString → Except HexError Bytes
  | [] => .ok []
  | [p] =>
    match reverseHexTable p with
    | none => .error (.invalidByte p)
    | some _ => .error .length
  | p :: q :: rest =>
    match reverseHexTable p with
    | none => .error (.invalidByte p)
    | some a =>
      match reverseHexTable q with
      | none => .error (.invalidByte q)
      | some b =>
        match hexDecodeString rest with
        | .error e => .error e
        | .ok t => .ok (Fin.ofNat (a * 16 + b) :: t)

/-! ## strings -/

/-- The function `strings.TrimPrefix`. -/
def TrimPrefix (s pre : GoString) : GoString :=
  if pre.isPrefixOf s then s.drop pre.length else s

/-! ## Primitives of the imported libraries -/

/-- The library functions `crypto.go` calls and that are not part of the
repository. -/
structure Prims where
  /-- The function `argon2.IDKey password salt time memory threads keyLen`. -/
  argon2IDKey : Bytes → Bytes → Nat → Nat → Nat → Nat → Bytes
  /-- The AES block function `Block.Encrypt` under a key. -/
  aesEncrypt : Bytes → Bytes → Bytes
  /-- HMAC-SHA256 of a message under a key: `hmac.New(sha256.New, k)`,
  `Write`, `Sum(nil)`. -/
  hmacSHA256 : Bytes → Bytes → Bytes
  /-- Parsed secp256k1 private keys. -/
  PrivateKey : Type
  /-- The function `crypto.HexToECDSA`; `none` is a parse error. -/
  HexToECDSA : GoString → Option PrivateKey
  /-- The address `crypto.PubkeyToAddress(k.PublicKey).Hex()`. -/
  PubkeyToAddressHex : PrivateKey → GoString

/-! ## Constants -/

def argon2Time : Nat := 1
def argon2Memory : Nat := 32 * 1024
def argon2Threads : Nat := 4
def argon2KeyLen : Nat := 32

/-- The constant `aes.BlockSize`. -/
def aesBlockSize : Nat := 16
/-- The constant `sha256.Size`. -/
def sha256Size : Nat := 32

/-- The type `KeyVersion`, a `uint8`. -/
abbrev KeyVersion := Byte

def KeyVersion1 : KeyVersion := 1

/-! ## Contexts, errors, operations -/

/-- The two values of `ctx.Err()` of a finished context. -/
inductive CtxErr where
  | canceled
  | deadlineExceeded
  deriving DecidableEq, Repr

/-- A `context.Context` as the functions see it at entry: `Err` is `none`
while `Done()` is open. -/
structure Context where
  Err : Option CtxErr
  deriving DecidableEq, Repr

/-- The errors `EncryptPrivateKey` and `DecryptPrivateKey` return, one
constructor per `return` statement with a non-nil error. -/
inductive CryptoError where
  /-- The value `ctx.Err()`. -/
  | ctx (e : CtxErr)
  /-- Message "invalid private key length: %d". -/
  | invalidKeyLength (n : Nat)
  /-- The error of `hex.DecodeString`, returned as is. -/
  | hex (e : HexError)
  /-- Message "failed to parse private key: %v". -/
  | parseKey
  /-- Message "failed to generate salt: %v". -/
  | generateSalt
  /-- Message "failed to create cipher: %v". -/
  | createCipher
  /-- Message "failed to generate IV: %v". -/
  | generateIV
  /-- Message "failed to decode private key: %v". -/
  | decodeKey (e : HexError)
  /-- Message "failed to decode encrypted key: %v". -/
  | decodeEncrypted (e : HexError)
  /-- Message "encrypted key too short". -/
  | tooShort
  /-- Message "HMAC verification failed". -/
  | hmacFailed
  deriving DecidableEq, Repr

/-- The operations of `crypto.go`, as they appear in a run. -/
inductive Op where
  /-- The `select` on `ctx.Done()`. -/
  | ctxDone
  /-- A call of `strings.TrimPrefix` and the length test. -/
  | checkLength
  /-- A call of `hex.DecodeString`. -/
  | hexDecode
  /-- A call of `crypto.HexToECDSA`. -/
  | hexToECDSA
  /-- A call of `rand.Read`. -/
  | randRead
  /-- A call of `deriveKey` with this salt and version. -/
  | deriveKey (salt : Bytes) (version : KeyVersion)
  /-- A call of `aes.NewCipher`. -/
  | newCipher
  /-- A call of `XORKeyStream` of the CFB stream. -/
  | xorKeyStream
  /-- The computation of an HMAC. -/
  | hmacSum
  /-- A call of `hmac.Equal`. -/
  | hmacEqual
  deriving DecidableEq, Repr

/-! ## deriveKey -/

/-- The function `deriveKey`: Argon2id on the passphrase with the salt
followed by the version byte, split in two halves. -/
def deriveKey (P : Prims) (passphrase salt : Bytes) (version : KeyVersion) : Bytes × Bytes :=
  let saltWithVersion := salt ++ [version]
  let derived := P.argon2IDKey passphrase saltWithVersion argon2Time argon2Memory
    argon2Threads (argon2KeyLen * 2)
  (derived.take argon2KeyLen, derived.drop argon2KeyLen)

/-! ## AES and the CFB stream -/

/-- The function `aes.NewCipher`: a block function for keys of 16, 24 or 32
bytes, an error for any other length. -/
def aesNewCipher (P : Prims) (key : Bytes) : Option (Bytes → Bytes) :=
  if key.length = 16 ∨ key.length = 24 ∨ key.length = 32 then some (P.aesEncrypt key) else none

/-- The loop of `(*cfb).XORKeyStream`, one byte at a time. `next` is the shift
register, `out` the current key-stream block and `outUsed` the number of its
bytes already used; the register takes the ciphertext byte, which is the
input when decrypting and the output when encrypting. -/
def cfbLoop (b : Bytes → Bytes) (decrypt : Bool) : Bytes → Bytes → Nat → Bytes → Bytes
  | _, _, _, [] => []
  | next, out, outUsed, s :: src =>
    let out1 := if outUsed = aesBlockSize then b next else out
    let used1 := if outUsed = aesBlockSize then 0 else outUsed
    let d := xorByte s (out1.getD used1 0)
    let next1 := next.set used1 (if decrypt then s else d)
    d :: cfbLoop b decrypt next1 out1 (used1 + 1) src

/-- A stream made by `cipher.NewCFBEncrypter` or `cipher.NewCFBDecrypter`
applied once to `src`: the register starts as the IV and the key-stream block
starts used up. -/
def cfbXORKeyStream (b : Bytes → Bytes) (decrypt : Bool) (iv src : Bytes) : Bytes :=
  cfbLoop b decrypt iv (List.replicate aesBlockSize 0) aesBlockSize src

/-! ## EncryptPrivateKey and DecryptPrivateKey -/

/-- The results of `EncryptPrivateKey`: encrypted key, address, salt (`none`
is the nil slice) and error. -/
structure EncryptResult where
  encryptedKey : GoString
  address : GoString
  salt : Option Bytes
  err : Option CryptoError
  deriving DecidableEq, Repr

/-- The results of `DecryptPrivateKey`: private key hex and error. -/
structure DecryptResult where
  privateKeyHex : GoString
  err : Option CryptoError
  deriving DecidableEq, Repr

/-- A run of a function: the operations performed, in order, and the values
returned. -/
structure Run (α : Type) where
  ops : List Op
  ret : α

/-- An error return of `EncryptPrivateKey`. -/
def encryptFail (ops : List Op) (e : CryptoError) : Run EncryptResult :=
  ⟨ops, ⟨[], [], none, some e⟩⟩

/-- An error return of `DecryptPrivateKey`. -/
def decryptFail (ops : List Op) (e : CryptoError) : Run DecryptResult :=
  ⟨ops, ⟨[], some e⟩⟩

/-- The function `EncryptPrivateKey`. `saltRead` and `ivRead` are the outcomes
of the two calls of `rand.Read`: the bytes drawn, or `none` for an error. -/
def EncryptPrivateKey (P : Prims) (ctx : Context) (saltRead ivRead : Option Bytes)
    (privateKeyHex : GoString) (passphrase : Bytes) (version : KeyVersion) :
    Run EncryptResult :=
  match ctx.Err with
  | some e => encryptFail [.ctxDone] (.ctx e)
  | none =>
    let privateKeyHex := TrimPrefix privateKeyHex (ascii "0x")
    if privateKeyHex.length ≠ 64 then
      encryptFail [.ctxDone, .checkLength] (.invalidKeyLength privateKeyHex.length)
    else
      match hexDecodeString privateKeyHex with
      | .error e => encryptFail [.ctxDone, .checkLength, .hexDecode] (.hex e)
      | .ok _ =>
        match P.HexToECDSA privateKeyHex with
        | none => encryptFail [.ctxDone, .checkLength, .hexDecode, .hexToECDSA] .parseKey
        | some privateKey =>
          match saltRead with
          | none =>
            encryptFail [.ctxDone, .checkLength, .hexDecode, .hexToECDSA, .randRead]
              .generateSalt
          | some salt =>
            let keys := deriveKey P passphrase salt version
            let key := keys.1
            let macKey := keys.2
            match aesNewCipher P key with
            | none =>
              encryptFail [.ctxDone, .checkLength, .hexDecode, .hexToECDSA, .randRead,
                .deriveKey salt version, .newCipher] .createCipher
            | some block =>
              match ivRead with
              | none =>
                encryptFail [.ctxDone, .checkLength, .hexDecode, .hexToECDSA, .randRead,
                  .deriveKey salt version, .newCipher, .randRead] .generateIV
              | some iv =>
                match hexDecodeString privateKeyHex with
                | .error e =>
                  encryptFail [.ctxDone, .checkLength, .hexDecode, .hexToECDSA, .randRead,
                    .deriveKey salt version, .newCipher, .randRead, .hexDecode] (.decodeKey e)
                | .ok plaintext =>
                  let ciphertext := cfbXORKeyStream block false iv plaintext
                  let data := iv ++ ciphertext
                  let hmacSum := P.hmacSHA256 macKey data
                  let encryptedKey := hexEncodeToString (data ++ hmacSum)
                  let address := P.PubkeyToAddressHex privateKey
                  ⟨[.ctxDone, .checkLength, .hexDecode, .hexToECDSA, .randRead,
                    .deriveKey salt version, .newCipher, .randRead, .hexDecode,
                    .xorKeyStream, .hmacSum],
                   ⟨encryptedKey, address, some salt, none⟩⟩

/-- The function `DecryptPrivateKey`. -/
def DecryptPrivateKey (P : Prims) (ctx : Context) (encryptedKey : GoString)
    (passphrase salt : Bytes) (version : KeyVersion) : Run DecryptResult :=
  match ctx.Err with
  | some e => decryptFail [.ctxDone] (.ctx e)
  | none =>
    match hexDecodeString encryptedKey with
    | .error e => decryptFail [.ctxDone, .hexDecode] (.decodeEncrypted e)
    | .ok data =>
      if data.length < aesBlockSize + sha256Size then
        decryptFail [.ctxDone, .hexDecode] .tooShort
      else
        let iv := data.take aesBlockSize
        let ciphertext := (data.take (data.length - sha256Size)).drop aesBlockSize
        let receivedHmac := data.drop (data.length - sha256Size)
        let keys := deriveKey P passphrase salt version
        let key := keys.1
        let macKey := keys.2
        let expectedHmac := P.hmacSHA256 macKey (data.take (data.length - sha256Size))
        if receivedHmac ≠ expectedHmac then
          decryptFail [.ctxDone, .hexDecode, .deriveKey salt version, .hmacSum, .hmacEqual]
            .hmacFailed
        else
          match aesNewCipher P key with
          | none =>
            decryptFail [.ctxDone, .hexDecode, .deriveKey salt version, .hmacSum, .hmacEqual,
              .newCipher] .createCipher
          | some block =>
            let plaintext := cfbXORKeyStream block true iv ciphertext
            ⟨[.ctxDone, .hexDecode, .deriveKey salt version, .hmacSum, .hmacEqual,
              .newCipher, .xorKeyStream],
             ⟨hexEncodeToString plaintext, none⟩⟩

/-- The statements `b := make([]byte, n)` and `rand.Read(b)`: on success the
`n` bytes of the buffer are the first `n` bytes of the random source; `none` is
an error of `rand.Read`. In `EncryptPrivateKey` the salt is made with `n = 16`
and the IV with `n = aes.BlockSize`. -/
def randRead (n : Nat) (source : Option (Nat → Byte)) : Option Bytes :=
  source.map (fun f => (List.range n).map f)

/-! ## The account store -/

/-- The type `Account`. -/
structure Account where
  Alias : GoString
  Address : GoString
  EncryptedKey : GoString
  Salt : GoString
  KeyVersion : Byte
  deriving DecidableEq, Repr

/-- The rows of the table `accounts`. The column `address` is the primary key,
so no two rows of a table have the same address. -/
abbrev Table := List Account

/-- A hex digit of either case. -/
def isHexDigit (c : Byte) : Bool :=
  (48 ≤ c.val && c.val ≤ 57) || (97 ≤ c.val && c.val ≤ 102) || (65 ≤ c.val && c.val ≤ 70)

/-- The condition `col ~ '^[0-9a-fA-F]+$'` of the constraints
`valid_hex_encrypted_key` and `valid_hex_salt`: one hex digit or more, nothing
else. -/
def matchesHex (s : GoString) : Bool :=
  !s.isEmpty && s.all isHexDigit

/-- The `CHECK` constraints of the table, of `init` and `migrateSchema`:
`valid_hex_encrypted_key`, `valid_hex_salt` and `valid_key_version`
(`key_version >= 1`). -/
def rowChecks (r : Account) : Bool :=
  matchesHex r.EncryptedKey && matchesHex r.Salt && decide (1 ≤ r.KeyVersion.val)

/-- The clause `SET alias = $2, encrypted_key = $3, salt = $4, key_version = $5`
on a row. -/
def updateRow (x r : Account) : Account :=
  ⟨r.Alias, x.Address, r.EncryptedKey, r.Salt, r.KeyVersion⟩

/-- The statement `INSERT ... ON CONFLICT (address) DO UPDATE SET alias = $2,
encrypted_key = $3, salt = $4, key_version = $5` on the rows: the row with the
address of `r`, of which the primary key allows one, takes the four other
columns of `r`; without such a row, `r` is inserted. -/
def upsertRow : Table → Account → Table
  | [], r => [r]
  | x :: xs, r =>
    if x.Address = r.Address then updateRow x r :: xs
    else x :: upsertRow xs r

/-- The errors of `SaveAccount`. -/
inductive DbError where
  /-- Message "invalid address: %s". -/
  | invalidAddress (address : GoString)
  /-- Message "failed to save account: %v". -/
  | saveFailed
  deriving DecidableEq, Repr

/-- The function `SaveAccount` on the rows of the table: the new rows and the
error. `isHexAddress` is `common.IsHexAddress` of go-ethereum. The statement
fails, and changes nothing, when the row violates a `CHECK` constraint. -/
def SaveAccount (isHexAddress : GoString → Bool) (db : Table)
    (aliasName address encryptedKey salt : GoString) (keyVersion : Byte) :
    Table × Option DbError :=
  if !isHexAddress address then (db, some (.invalidAddress address))
  else
    if rowChecks ⟨aliasName, address, encryptedKey, salt, keyVersion⟩ then
      (upsertRow db ⟨aliasName, address, encryptedKey, salt, keyVersion⟩, none)
    else (db, some .saveFailed)

/-- The call `SaveAccount` with the fields of a record. -/
def saveRecord (isHexAddress : GoString → Bool) (db : Table) (a : Account) :
    Table × Option DbError :=
  SaveAccount isHexAddress db a.Alias a.Address a.EncryptedKey a.Salt a.KeyVersion

/-- The rows of a table with a given address. -/
def rowsOf (db : Table) (address : GoString) : Table :=
  db.filter (fun r => decide (r.Address = address))

/-- The errors of `GetAccount`. -/
inductive LookupError where
  /-- Message "account not found: %s", for `sql.ErrNoRows`. -/
  | notFound (identifier : GoString)
  deriving DecidableEq, Repr

/-- The condition `address = $1 OR alias = $1` on a row. -/
def matchesIdentifier (identifier : GoString) (r : Account) : Bool :=
  decide (r.Address = identifier) || decide (r.Alias = identifier)

/-- The function `GetAccount` on the rows of the table: the account (`none` is
the nil pointer) and the error. `QueryRowContext(...).Scan` takes the first row
of the result of `SELECT ... WHERE address = $1 OR alias = $1`; the statement
has no `ORDER BY`, so the rows come in the order in which the table yields
them, which is the order of the list. -/
def GetAccount (db : Table) (identifier : GoString) : Option Account × Option LookupError :=
  match db.find? (matchesIdentifier identifier) with
  | none => (none, some (.notFound identifier))
  | some acc => (some acc, none)

/-! ## Key buffers of the crypto functions -/

/-- The contents of the local slices `key` and `macKey` of a crypto function. -/
structure KeyBuffers where
  key : Bytes
  macKey : Bytes
  deriving DecidableEq, Repr

/-- The slices `key` and `macKey` when `EncryptPrivateKey` returns. They are
assigned by the call of `deriveKey`, and no later statement writes to them;
`none` when the function returns before that call. -/
def encryptKeyBuffers (P : Prims) (ctx : Context) (saltRead : Option Bytes)
    (privateKeyHex : GoString) (passphrase : Bytes) (version : KeyVersion) :
    Option KeyBuffers :=
  match ctx.Err with
  | some _ => none
  | none =>
    let privateKeyHex := TrimPrefix privateKeyHex (ascii "0x")
    if privateKeyHex.length ≠ 64 then none
    else
      match hexDecodeString privateKeyHex with
      | .error _ => none
      | .ok _ =>
        match P.HexToECDSA privateKeyHex with
        | none => none
        | some _ =>
          match saltRead with
          | none => none
          | some salt =>
            let keys := deriveKey P passphrase salt version
            some ⟨keys.1, keys.2⟩

/-- The slices `key` and `macKey` when `DecryptPrivateKey` returns. They are
assigned by the call of `deriveKey`, and no later statement writes to them;
`none` when the function returns before that call. -/
def decryptKeyBuffers (P : Prims) (ctx : Context) (encryptedKey : GoString)
    (passphrase salt : Bytes) (version : KeyVersion) : Option KeyBuffers :=
  match ctx.Err with
  | some _ => none
  | none =>
    match hexDecodeString encryptedKey with
    | .error _ => none
    | .ok data =>
      if data.length < aesBlockSize + sha256Size then none
      else
        let keys := deriveKey P passphrase salt version
        some ⟨keys.1, keys.2⟩

/-! ## The commands `account import` and `info check` -/

/-- The results of `term.ReadPassword`: the slice and whether the error is
non-nil. -/
structure ReadResult where
  buf : Bytes
  failed : Bool
  deriving DecidableEq, Repr

/-- The errors the two commands return, one constructor per `return` with a
non-nil error. -/
inductive CmdError where
  /-- Message "failed to read private key: %v". -/
  | readPrivateKey
  /-- Message "failed to read passphrase: %v". -/
  | readPassphrase
  /-- Message "passphrase too short, minimum 8 characters". -/
  | passphraseTooShort
  /-- Message "failed to read passphrase confirmation: %v". -/
  | readConfirmation
  /-- Message "passphrases do not match". -/
  | passphrasesDoNotMatch
  /-- Message "failed to encrypt private key: %v". -/
  | encrypt (e : CryptoError)
  /-- Message "failed to save account: %v". -/
  | save (e : DbError)
  /-- Message "failed to get account: %v". -/
  | getAccount (e : LookupError)
  /-- Message "failed to decode salt: %v". -/
  | decodeSalt (e : HexError)
  /-- Message "failed to decrypt private key: %v". -/
  | decrypt (e : CryptoError)
  /-- A nil account with a nil error, which `GetAccount` never returns. -/
  | nilAccount
  deriving DecidableEq, Repr

/-- The loop `for i := range b { b[i] = 0 }`. -/
def zeroize (b : Bytes) : Bytes :=
  b.map (fun _ => 0)

/-- A run of `accountImportCmd`: the contents of the three buffers and the
table when the command returns, and the error. -/
structure ImportRun where
  privateKeyBytes : Bytes
  passphrase : Bytes
  passphraseConfirm : Bytes
  db : Table
  err : Option CmdError
  deriving DecidableEq, Repr

/-- The function `RunE` of `accountImportCmd`. `readKey`, `readPass` and
`readConfirm` are the results of the three calls of `term.ReadPassword`,
`aliasFlag` is the flag `--alias`, `ctx` is the state of the 5 second context
when `EncryptPrivateKey` is entered, `trimSpace` is `strings.TrimSpace`. -/
def accountImportCmd (P : Prims) (trimSpace : GoString → GoString)
    (isHexAddress : GoString → Bool) (db : Table) (aliasFlag : GoString) (ctx : Context)
    (saltRead ivRead : Option Bytes) (readKey readPass readConfirm : ReadResult) :
    ImportRun :=
  let privateKeyBytes := readKey.buf
  if readKey.failed then ⟨privateKeyBytes, [], [], db, some .readPrivateKey⟩
  else
    let privateKey := trimSpace privateKeyBytes
    let passphrase := readPass.buf
    if readPass.failed then ⟨privateKeyBytes, passphrase, [], db, some .readPassphrase⟩
    else if passphrase.length < 8 then
      ⟨privateKeyBytes, passphrase, [], db, some .passphraseTooShort⟩
    else
      let passphraseConfirm := readConfirm.buf
      if readConfirm.failed then
        ⟨privateKeyBytes, passphrase, passphraseConfirm, db, some .readConfirmation⟩
      else if passphrase ≠ passphraseConfirm then
        ⟨privateKeyBytes, passphrase, passphraseConfirm, db, some .passphrasesDoNotMatch⟩
      else
        let r := (EncryptPrivateKey P ctx saltRead ivRead privateKey passphrase KeyVersion1).ret
        match r.err with
        | some e => ⟨privateKeyBytes, passphrase, passphraseConfirm, db, some (.encrypt e)⟩
        | none =>
          let aliasName := if aliasFlag = [] then r.address else aliasFlag
          let saved := SaveAccount isHexAddress db aliasName r.address r.encryptedKey
            (hexEncodeToString (r.salt.getD [])) KeyVersion1
          match saved.2 with
          | some e => ⟨privateKeyBytes, passphrase, passphraseConfirm, saved.1, some (.save e)⟩
          | none =>
            ⟨zeroize privateKeyBytes, zeroize passphrase, zeroize passphraseConfirm, saved.1,
              none⟩

/-- A run of `infoCheckCmd`: the contents of the two buffers when the command
returns, and the error. -/
structure CheckRun where
  passphrase : Bytes
  privateKeyBytes : Bytes
  err : Option CmdError
  deriving DecidableEq, Repr

/-- The function `RunE` of `infoCheckCmd`. `account` is the flag `--account`,
`readPass` the result of `term.ReadPassword`, `ctx` the state of the 5 second
context when `DecryptPrivateKey` is entered. The slice `privateKeyBytes` is
made from the decrypted string. -/
def infoCheckCmd (P : Prims) (db : Table) (account : GoString) (ctx : Context)
    (readPass : ReadResult) : CheckRun :=
  match GetAccount db account with
  | (_, some e) => ⟨[], [], some (.getAccount e)⟩
  | (none, none) => ⟨[], [], some .nilAccount⟩
  | (some acc, none) =>
    let passphrase := readPass.buf
    if readPass.failed then ⟨passphrase, [], some .readPassphrase⟩
    else
      match hexDecodeString acc.Salt with
      | .error e => ⟨passphrase, [], some (.decodeSalt e)⟩
      | .ok salt =>
        let r := (DecryptPrivateKey P ctx acc.EncryptedKey passphrase salt acc.KeyVersion).ret
        match r.err with
        | some e => ⟨passphrase, [], some (.decrypt e)⟩
        | none =>
          let privateKeyBytes := r.privateKeyHex
          ⟨zeroize passphrase, zeroize privateKeyBytes, none⟩

/-! ## Auxiliary definitions for the statements -/

/-- A lower-case hex digit. -/
def isLowerHex (c : Byte) : Bool :=
  (48 ≤ c.val && c.val ≤ 57) || (97 ≤ c.val && c.val ≤ 102)

/-- The operations of a run of `EncryptPrivateKey` that returns no error. -/
def encryptOps (salt : Bytes) (version : KeyVersion) : List Op :=
  [.ctxDone, .checkLength, .hexDecode, .hexToECDSA, .randRead, .deriveKey salt version,
    .newCipher, .randRead, .hexDecode, .xorKeyStream, .hmacSum]

/-- The operations of a run of `DecryptPrivateKey` up to the HMAC comparison. -/
def verifyOps (salt : Bytes) (version : KeyVersion) : List Op :=
  [.ctxDone, .hexDecode, .deriveKey salt version, .hmacSum, .hmacEqual]

/-- The string with bit `j` of its byte `i` flipped. -/
def flipBit (s : GoString) (i j : Nat) : GoString :=
  s.set i (xorByte (s.getD i 0) (Fin.ofNat (2 ^ j)))

/-- The bytes of `src` xored with the bytes of `out` from position `m` on, a
missing byte of `out` counting as zero. -/
def xorFrom (out : Bytes) : Nat → Bytes → Bytes
  | _, [] => []
  | m, s :: src => xorByte s (out.getD m 0) :: xorFrom out (m + 1) src

/-- The slice `next` with the bytes `ds` written from position `m` on. -/
def writeFrom : Bytes → Nat → Bytes → Bytes
  | next, _, [] => next
  | next, m, d :: ds => writeFrom (next.set m d) (m + 1) ds

/-! ## Stand-in primitives for evaluating the definitions -/

/-- The big-endian value of a slice. -/
def bytesToNat (bs : Bytes) : Nat := bs.foldl (fun acc b => acc * 256 + b.val) 0

/-- A position-dependent checksum of a slice. -/
def mix (bs : Bytes) : Nat := bs.foldl (fun acc b => (acc * 31 + b.val + 1) % 65521) 7

/-- The order of the secp256k1 group. -/
def secp256k1N : Nat :=
  0xFFFFFFFFFFFFFFFFFFFFFFFFFFFFFFFEBAAEDCE6AF48A03BBFD25E8CD0364141

/-- Small stand-ins for the library primitives, with the output lengths of the
real ones and the scalar range check of `crypto.HexToECDSA`. They serve to
evaluate the definitions on concrete inputs. -/
def toyPrims : Prims where
  argon2IDKey := fun password salt time memory threads keyLen =>
    (List.range keyLen).map
      (fun i => Fin.ofNat (mix (password ++ salt) + mix salt + time + memory + threads
        + mix [Fin.ofNat i]))
  aesEncrypt := fun key block => block.map (fun b => Fin.ofNat (b.val + mix key + 1))
  hmacSHA256 := fun key msg =>
    (List.range 32).map (fun i => Fin.ofNat (mix (key ++ msg) + mix [Fin.ofNat i]))
  PrivateKey := Nat
  HexToECDSA := fun s =>
    match hexDecodeString s with
    | .error _ => none
    | .ok d =>
      if d.length = 32 ∧ 0 < bytesToNat d ∧ bytesToNat d < secp256k1N then some (bytesToNat d)
      else none
  PubkeyToAddressHex := fun d => ascii "0x" ++ hexEncodeToString [Fin.ofNat d]

/-- A context that is not done. -/
def liveCtx : Context := ⟨none⟩

/-- The key of the fuzz corpus. -/
def sampleKey : GoString :=
  ascii "fc288568c56dbf84a7af60cdb45f504ec32bac450cc042c27a420877637755ca"

/-- The passphrase of the fuzz corpus. -/
def samplePass : Bytes := ascii "testpass"

/-- A salt draw. -/
def sampleSalt : Bytes := (List.range 16).map (fun i => Fin.ofNat (17 * i + 3))

/-- The key of the fuzz corpus with the `0x` prefix. -/
def sampleKey0x : GoString :=
  ascii "0xfc288568c56dbf84a7af60cdb45f504ec32bac450cc042c27a420877637755ca"

/-- The key of the fuzz corpus in upper case. -/
def sampleKeyUpper : GoString :=
  ascii "FC288568C56DBF84A7AF60CDB45F504EC32BAC450CC042C27A420877637755CA"

/-- An IV draw. -/
def sampleIV : Bytes := (List.range 16).map (fun i => Fin.ofNat (11 * i + 5))

/-- The blob of the sample encryption. -/
def sampleBlob : GoString :=
  (EncryptPrivateKey toyPrims liveCtx (some sampleSalt) (some sampleIV) sampleKey samplePass
    KeyVersion1).ret.encryptedKey

/-- The bytes of a hex string, empty when it does not decode. -/
def decoded (s : GoString) : Bytes :=
  match hexDecodeString s with
  | .ok d => d
  | .error _ => []

/-- A passphrase other than the sample one. -/
def wrongPass : Bytes := ascii "wrong-pass-12345"

/-- The sample key behind two `0x` prefixes. -/
def sampleKey0x0x : GoString :=
  ascii "0x0xfc288568c56dbf84a7af60cdb45f504ec32bac450cc042c27a420877637755ca"

/-- The zero scalar, 64 hex digits. -/
def zeroKey : GoString := List.replicate 64 48

/-- The function `common.IsHexAddress` of go-ethereum: 40 hex digits after an
optional `0x` or `0X`. -/
def IsHexAddress (s : GoString) : Bool :=
  let t := match s with
    | a :: b :: rest => if a.val = 48 ∧ (b.val = 120 ∨ b.val = 88) then rest else s
    | _ => s
  decide (t.length = 40) && t.all isHexDigit

/-- An address. -/
def sampleAddress : GoString := ascii "0x52908400098527886E0F7030069857D2E4169EE7"

/-- A record for the sample address. -/
def recordA : Account :=
  ⟨ascii "old", sampleAddress, ascii "00aa", ascii "0102", 1⟩

/-- Another record for the sample address. -/
def recordB : Account :=
  ⟨ascii "new", sampleAddress, ascii "ffee", ascii "a1b2", 2⟩

/-- A record for another address. -/
def recordC : Account :=
  ⟨ascii "other", ascii "0xde709f2102306220921060314715629080e2fb77", ascii "1234",
    ascii "cd", 1⟩

/-- A record for the sample address with an empty salt. -/
def recordEmptySalt : Account :=
  ⟨ascii "new", sampleAddress, ascii "ffee", [], 1⟩

/-- A record for the sample address whose alias is the address of `recordC`. -/
def recordAliasC : Account :=
  ⟨ascii "0xde709f2102306220921060314715629080e2fb77", sampleAddress, ascii "00aa",
    ascii "0102", 1⟩

/-- The stand-in primitives with an address of 20 bytes. -/
def toyPrimsAddr : Prims where
  argon2IDKey := toyPrims.argon2IDKey
  aesEncrypt := toyPrims.aesEncrypt
  hmacSHA256 := toyPrims.hmacSHA256
  PrivateKey := Nat
  HexToECDSA := toyPrims.HexToECDSA
  PubkeyToAddressHex := fun d =>
    ascii "0x" ++ hexEncodeToString ((List.range 20).map (fun i => Fin.ofNat (d / 256 ^ i)))

/-- A stand-in for `strings.TrimSpace` on ASCII: it drops the leading and the
trailing space, tab, line feed and carriage return. -/
def asciiTrimSpace (s : GoString) : GoString :=
  let sp : Byte → Bool := fun c => c.val = 32 || c.val = 9 || c.val = 10 || c.val = 13
  ((s.dropWhile sp).reverse.dropWhile sp).reverse

/-- A successful read of the sample key. -/
def readSampleKey : ReadResult := ⟨sampleKey, false⟩

/-- A successful read of the sample passphrase. -/
def readSamplePass : ReadResult := ⟨samplePass, false⟩

/-- A successful read of another passphrase. -/
def readWrongPass : ReadResult := ⟨wrongPass, false⟩

/-- A successful read of the zero scalar. -/
def readZeroKey : ReadResult := ⟨zeroKey, false⟩

/-- The random source of the sample salt. -/
def sampleSaltSource : Nat → Byte := fun i => Fin.ofNat (17 * i + 3)

/-- The random source of the sample IV. -/
def sampleIVSource : Nat → Byte := fun i => Fin.ofNat (11 * i + 5)

/-! ## Lemmas: bytes and hex -/

theorem xorByte_cancel (s k : Byte) : xorByte (xorByte s k) k = s := by
  apply Fin.ext
  have h : Nat.xor s.val k.val < 2 ^ 8 := Nat.xor_lt_two_pow s.isLt k.isLt
  have h1 : Nat.xor s.val k.val % 256 = Nat.xor s.val k.val := Nat.mod_eq_of_lt h
  show Nat.xor (Nat.xor s.val k.val % 256) k.val % 256 = s.val
  rw [h1]
  have h2 : Nat.xor (Nat.xor s.val k.val) k.val = s.val := by
    show (s.val ^^^ k.val) ^^^ k.val = s.val
    rw [Nat.xor_assoc, Nat.xor_self, Nat.xor_zero]
  rw [h2]
  exact Nat.mod_eq_of_lt s.isLt

theorem reverseHexTable_hextable (n : Nat) (h : n < 16) :
    reverseHexTable (hextable n) = some n := by
  interval_cases n <;> rfl

theorem reverseHexTable_lt (c : Byte) (a : Nat) (h : reverseHexTable c = some a) : a < 16 := by
  unfold reverseHexTable at h
  split at h
  · injection h with h; omega
  · split at h
    · injection h with h; omega
    · split at h
      · injection h with h; omega
      · cases h

theorem hexDecode_encode (bs : Bytes) : hexDecodeString (hexEncodeToString bs) = .ok bs := by
  induction bs with
  | nil => rfl
  | cons v rest ih =>
    have h1 : v.val / 16 < 16 := by have := v.isLt; omega
    have h2 : v.val % 16 < 16 := Nat.mod_lt _ (by decide)
    have h3 : (Fin.ofNat (v.val / 16 * 16 + v.val % 16) : Byte) = v := by
      apply Fin.ext
      show (v.val / 16 * 16 + v.val % 16) % 256 = v.val
      have := v.isLt
      omega
    simp only [hexEncodeToString, hexDecodeString, reverseHexTable_hextable _ h1,
      reverseHexTable_hextable _ h2, ih, h3]

theorem hexEncode_length (bs : Bytes) : (hexEncodeToString bs).length = 2 * bs.length := by
  induction bs with
  | nil => rfl
  | cons v rest ih => simp only [hexEncodeToString, List.length_cons, ih]; omega

theorem hexDecode_length : ∀ (s : GoString) (bs : Bytes),
    hexDecodeString s = .ok bs → s.length = 2 * bs.length
  | [], bs, h => by
    simp only [hexDecodeString] at h
    cases h
    rfl
  | [p], bs, h => by
    simp only [hexDecodeString] at h
    split at h <;> cases h
  | p :: q :: rest, bs, h => by
    simp only [hexDecodeString] at h
    split at h
    · cases h
    · split at h
      · cases h
      · split at h
        · cases h
        · rename_i t ht
          cases h
          have := hexDecode_length rest t ht
          simp only [List.length_cons, this]
          omega

set_option maxRecDepth 100000 in
theorem hextable_reverse_lower :
    ∀ c : Byte, isLowerHex c = true → (reverseHexTable c).map hextable = some c := by
  decide

set_option maxRecDepth 100000 in
theorem reverseHexTable_byte :
    ∀ p q : Fin 16, ((Fin.ofNat (p.val * 16 + q.val) : Byte).val / 16 = p.val) ∧
      ((Fin.ofNat (p.val * 16 + q.val) : Byte).val % 16 = q.val) := by
  decide

theorem hexEncode_decode_lower : ∀ (s : GoString) (bs : Bytes),
    hexDecodeString s = .ok bs → (∀ c ∈ s, isLowerHex c = true) → hexEncodeToString bs = s
  | [], bs, h, _ => by
    simp only [hexDecodeString] at h
    cases h
    rfl
  | [p], bs, h, _ => by
    simp only [hexDecodeString] at h
    split at h <;> cases h
  | p :: q :: rest, bs, h, hl => by
    simp only [hexDecodeString] at h
    split at h
    · cases h
    · rename_i a ha
      split at h
      · cases h
      · rename_i b hb
        split at h
        · cases h
        · rename_i t ht
          cases h
          have hrest := hexEncode_decode_lower rest t ht
            (fun c hc => hl c (List.mem_cons_of_mem _ (List.mem_cons_of_mem _ hc)))
          have hp := hextable_reverse_lower p (hl p (List.mem_cons_self _ _))
          have hq := hextable_reverse_lower q
            (hl q (List.mem_cons_of_mem _ (List.mem_cons_self _ _)))
          rw [ha] at hp
          rw [hb] at hq
          simp only [Option.map_some', Option.some.injEq] at hp hq
          have ha16 := reverseHexTable_lt p a ha
          have hb16 := reverseHexTable_lt q b hb
          have hv := reverseHexTable_byte ⟨a, ha16⟩ ⟨b, hb16⟩
          simp only at hv
          simp only [hexEncodeToString, hv.1, hv.2, hp, hq, hrest]



/-! ## Lemmas: the CFB stream -/

theorem cfbLoop_length (b : Bytes → Bytes) (decrypt : Bool) (src : Bytes) :
    ∀ (next out : Bytes) (outUsed : Nat),
      (cfbLoop b decrypt next out outUsed src).length = src.length := by
  induction src with
  | nil => intro next out outUsed; rfl
  | cons s src ih =>
    intro next out outUsed
    simp only [cfbLoop, List.length_cons, ih]

theorem cfbLoop_roundtrip (b : Bytes → Bytes) (src : Bytes) :
    ∀ (next out : Bytes) (outUsed : Nat),
      cfbLoop b true next out outUsed (cfbLoop b false next out outUsed src) = src := by
  induction src with
  | nil => intro next out outUsed; rfl
  | cons s src ih =>
    intro next out outUsed
    simp only [cfbLoop, xorByte_cancel, ih, Bool.false_eq_true, if_false, if_true]

theorem cfbXORKeyStream_length (b : Bytes → Bytes) (decrypt : Bool) (iv src : Bytes) :
    (cfbXORKeyStream b decrypt iv src).length = src.length :=
  cfbLoop_length b decrypt src _ _ _

theorem cfbXORKeyStream_roundtrip (b : Bytes → Bytes) (iv src : Bytes) :
    cfbXORKeyStream b true iv (cfbXORKeyStream b false iv src) = src :=
  cfbLoop_roundtrip b src _ _ _

/-! ## Lemmas: the shape of a successful encryption -/

theorem EncryptPrivateKey_ok (P : Prims) (ctx : Context) (saltRead ivRead : Option Bytes)
    (k : GoString) (p : Bytes) (v : KeyVersion)
    (h : (EncryptPrivateKey P ctx saltRead ivRead k p v).ret.err = none) :
    ∃ (keyBytes salt iv : Bytes) (pk : P.PrivateKey) (block : Bytes → Bytes),
      ctx.Err = none ∧
      (TrimPrefix k (ascii "0x")).length = 64 ∧
      hexDecodeString (TrimPrefix k (ascii "0x")) = .ok keyBytes ∧
      P.HexToECDSA (TrimPrefix k (ascii "0x")) = some pk ∧
      saltRead = some salt ∧ ivRead = some iv ∧
      aesNewCipher P (deriveKey P p salt v).1 = some block ∧
      EncryptPrivateKey P ctx saltRead ivRead k p v =
        ⟨encryptOps salt v,
         ⟨hexEncodeToString (iv ++ cfbXORKeyStream block false iv keyBytes
            ++ P.hmacSHA256 (deriveKey P p salt v).2
                (iv ++ cfbXORKeyStream block false iv keyBytes)),
          P.PubkeyToAddressHex pk, some salt, none⟩⟩ := by
  cases hctx : ctx.Err with
  | some e => simp [EncryptPrivateKey, hctx, encryptFail] at h
  | none =>
    by_cases hlen : (TrimPrefix k (ascii "0x")).length = 64
    · cases hdec : hexDecodeString (TrimPrefix k (ascii "0x")) with
      | error e => simp [EncryptPrivateKey, hctx, hlen, hdec, encryptFail] at h
      | ok keyBytes =>
        cases hpk : P.HexToECDSA (TrimPrefix k (ascii "0x")) with
        | none => simp [EncryptPrivateKey, hctx, hlen, hdec, hpk, encryptFail] at h
        | some pk =>
          cases saltRead with
          | none => simp [EncryptPrivateKey, hctx, hlen, hdec, hpk, encryptFail] at h
          | some salt =>
            cases hblock : aesNewCipher P (deriveKey P p salt v).1 with
            | none => simp [EncryptPrivateKey, hctx, hlen, hdec, hpk, hblock, encryptFail] at h
            | some block =>
              cases ivRead with
              | none =>
                simp [EncryptPrivateKey, hctx, hlen, hdec, hpk, hblock, encryptFail] at h
              | some iv =>
                refine ⟨keyBytes, salt, iv, pk, block, rfl, hlen, rfl, rfl, rfl, rfl, hblock, ?_⟩
                simp [EncryptPrivateKey, hctx, hlen, hdec, hpk, hblock, encryptOps]
    · simp [EncryptPrivateKey, hctx, hlen, encryptFail] at h



/-! ## Lemmas: decryption of a blob with a known layout -/

theorem split_layout (iv ct mac : Bytes) (hiv : iv.length = 16) (hmac : mac.length = 32) :
    ¬ (iv ++ ct ++ mac).length < aesBlockSize + sha256Size ∧
    (iv ++ ct ++ mac).take aesBlockSize = iv ∧
    (iv ++ ct ++ mac).take ((iv ++ ct ++ mac).length - sha256Size) = iv ++ ct ∧
    ((iv ++ ct ++ mac).take ((iv ++ ct ++ mac).length - sha256Size)).drop aesBlockSize = ct ∧
    (iv ++ ct ++ mac).drop ((iv ++ ct ++ mac).length - sha256Size) = mac := by
  have hlen : (iv ++ ct ++ mac).length - sha256Size = (iv ++ ct).length := by
    simp only [List.length_append, sha256Size, hmac]; omega
  have htake : (iv ++ ct ++ mac).take ((iv ++ ct ++ mac).length - sha256Size) = iv ++ ct := by
    rw [hlen]; exact List.take_left' rfl
  refine ⟨?_, ?_, htake, ?_, ?_⟩
  · simp only [List.length_append, aesBlockSize, sha256Size, hiv, hmac]; omega
  · rw [List.append_assoc]; exact List.take_left' hiv
  · rw [htake]; exact List.drop_left' hiv
  · rw [hlen]; exact List.drop_left' rfl

theorem DecryptPrivateKey_layout (P : Prims) (ctx : Context) (blob : GoString)
    (iv ct mac p salt : Bytes) (v : KeyVersion) (hctx : ctx.Err = none)
    (hdec : hexDecodeString blob = .ok (iv ++ ct ++ mac))
    (hiv : iv.length = 16) (hmac : mac.length = 32) :
    DecryptPrivateKey P ctx blob p salt v =
      if mac ≠ P.hmacSHA256 (deriveKey P p salt v).2 (iv ++ ct) then
        decryptFail (verifyOps salt v) .hmacFailed
      else
        match aesNewCipher P (deriveKey P p salt v).1 with
        | none => decryptFail (verifyOps salt v ++ [.newCipher]) .createCipher
        | some block =>
          ⟨verifyOps salt v ++ [.newCipher, .xorKeyStream],
           ⟨hexEncodeToString (cfbXORKeyStream block true iv ct), none⟩⟩ := by
  obtain ⟨h1, h2, h3, h4, h5⟩ := split_layout iv ct mac hiv hmac
  have h6 : List.drop aesBlockSize (iv ++ ct) = ct := List.drop_left' hiv
  simp only [DecryptPrivateKey, hctx, hdec, h1, h2, h3, h4, h5, h6, if_false, verifyOps,
    List.cons_append, List.nil_append]


/-! ## Round trip -/

/-- C1 (as amended). If `EncryptPrivateKey` returns `(blob, address, salt)`
without error, for any passphrase and any outcome of the two random draws (the
IV having the 16 bytes `rand.Read` fills), then `DecryptPrivateKey` on `blob`,
the same passphrase, `salt` and version, under a live context, returns no error
and the lower-case hex encoding of the 32 key bytes, which are the decoding of
the input after its optional `0x` is stripped. The result is the input string
itself when the input consists of lower-case hex digits only. -/
theorem C1_roundtrip (P : Prims) (ctx ctx2 : Context) (saltRead ivRead : Option Bytes)
    (k : GoString) (p : Bytes) (v : KeyVersion) (blob address : GoString) (salt : Bytes)
    (hmacLen : ∀ key msg, (P.hmacSHA256 key msg).length = 32)
    (hivLen : ∀ iv, ivRead = some iv → iv.length = 16)
    (hctx2 : ctx2.Err = none)
    (henc : (EncryptPrivateKey P ctx saltRead ivRead k p v).ret
      = ⟨blob, address, some salt, none⟩) :
    ∃ keyBytes : Bytes,
      hexDecodeString (TrimPrefix k (ascii "0x")) = .ok keyBytes ∧
      keyBytes.length = 32 ∧
      (DecryptPrivateKey P ctx2 blob p salt v).ret = ⟨hexEncodeToString keyBytes, none⟩ ∧
      ((∀ c ∈ k, isLowerHex c = true) →
        (DecryptPrivateKey P ctx2 blob p salt v).ret = ⟨k, none⟩) := by
  have herr : (EncryptPrivateKey P ctx saltRead ivRead k p v).ret.err = none := by
    rw [henc]
  obtain ⟨keyBytes, salt1, iv, pk, block, _, hlen, hdec, _, _, hiv, hblock, heq⟩ :=
    EncryptPrivateKey_ok P ctx saltRead ivRead k p v herr
  rw [heq] at henc
  simp only [EncryptResult.mk.injEq, Option.some.injEq, and_true] at henc
  obtain ⟨hblob, _, hsalt⟩ := henc
  subst hsalt
  have hk32 : keyBytes.length = 32 := by
    have := hexDecode_length _ _ hdec
    omega
  have hD : (DecryptPrivateKey P ctx2 blob p salt1 v).ret
      = ⟨hexEncodeToString keyBytes, none⟩ := by
    have hb : hexDecodeString blob = .ok (iv ++ cfbXORKeyStream block false iv keyBytes
        ++ P.hmacSHA256 (deriveKey P p salt1 v).2
          (iv ++ cfbXORKeyStream block false iv keyBytes)) := by
      rw [← hblob]; exact hexDecode_encode _
    rw [DecryptPrivateKey_layout P ctx2 blob iv _ _ p salt1 v hctx2 hb (hivLen iv hiv)
      (hmacLen _ _)]
    simp only [ne_eq, not_true_eq_false, if_false, hblock, cfbXORKeyStream_roundtrip]
  refine ⟨keyBytes, hdec, hk32, hD, ?_⟩
  intro hlow
  have hno : TrimPrefix k (ascii "0x") = k := by
    unfold TrimPrefix
    split
    · rename_i hpre
      exfalso
      cases k with
      | nil => simp [ascii] at hpre
      | cons a k1 =>
        cases k1 with
        | nil => simp [ascii] at hpre
        | cons b k2 =>
          have hb := hlow b (List.mem_cons_of_mem _ (List.mem_cons_self _ _))
          have hbx : b = (120 : Byte) := by
            have h2 : (ascii "0x") = [(48 : Byte), (120 : Byte)] := by decide
            rw [h2] at hpre
            simp only [List.isPrefixOf, Bool.and_eq_true, beq_iff_eq, Bool.and_true] at hpre
            exact hpre.2.symm
          rw [hbx] at hb
          exact absurd hb (by decide)
    · rfl
  rw [hno] at hdec
  rw [hD, hexEncode_decode_lower k keyBytes hdec hlow]

theorem toyPrims_hmacLen (key msg : Bytes) : (toyPrims.hmacSHA256 key msg).length = 32 := by
  simp [toyPrims]

theorem toyPrims_argon2Len (pw salt : Bytes) (t m th n : Nat) :
    (toyPrims.argon2IDKey pw salt t m th n).length = n := by
  simp [toyPrims]

theorem sampleIV_length : sampleIV.length = 16 := by decide

theorem sampleSalt_length : sampleSalt.length = 16 := by decide

set_option maxRecDepth 100000 in
/-- The round trip at the key and the passphrase of the fuzz corpus. -/
theorem C1_roundtrip_witness :
    ∃ keyBytes : Bytes,
      hexDecodeString (TrimPrefix sampleKey (ascii "0x")) = .ok keyBytes ∧
      keyBytes.length = 32 ∧
      (DecryptPrivateKey toyPrims liveCtx
        (EncryptPrivateKey toyPrims liveCtx (some sampleSalt) (some sampleIV) sampleKey
          samplePass KeyVersion1).ret.encryptedKey
        samplePass sampleSalt KeyVersion1).ret = ⟨hexEncodeToString keyBytes, none⟩ ∧
      ((∀ c ∈ sampleKey, isLowerHex c = true) →
        (DecryptPrivateKey toyPrims liveCtx
          (EncryptPrivateKey toyPrims liveCtx (some sampleSalt) (some sampleIV) sampleKey
            samplePass KeyVersion1).ret.encryptedKey
          samplePass sampleSalt KeyVersion1).ret = ⟨sampleKey, none⟩) :=
  C1_roundtrip toyPrims liveCtx liveCtx (some sampleSalt) (some sampleIV) sampleKey samplePass
    KeyVersion1
    (EncryptPrivateKey toyPrims liveCtx (some sampleSalt) (some sampleIV) sampleKey
      samplePass KeyVersion1).ret.encryptedKey
    (EncryptPrivateKey toyPrims liveCtx (some sampleSalt) (some sampleIV) sampleKey
      samplePass KeyVersion1).ret.address
    sampleSalt toyPrims_hmacLen
    (fun iv h => by cases h; exact sampleIV_length) rfl (by decide)

set_option maxRecDepth 100000 in
/-- C1 (as stated) fails: the key of the fuzz corpus written with the `0x`
prefix, or in upper case, is accepted by `EncryptPrivateKey`, and
`DecryptPrivateKey` returns the lower-case string without prefix, which is not
the string that was given. -/
theorem C1_counterexample :
    ((EncryptPrivateKey toyPrims liveCtx (some sampleSalt) (some sampleIV) sampleKey0x
        samplePass KeyVersion1).ret.err = none ∧
      (DecryptPrivateKey toyPrims liveCtx
        (EncryptPrivateKey toyPrims liveCtx (some sampleSalt) (some sampleIV) sampleKey0x
          samplePass KeyVersion1).ret.encryptedKey
        samplePass sampleSalt KeyVersion1).ret = ⟨sampleKey, none⟩ ∧
      sampleKey ≠ sampleKey0x) ∧
    ((EncryptPrivateKey toyPrims liveCtx (some sampleSalt) (some sampleIV) sampleKeyUpper
        samplePass KeyVersion1).ret.err = none ∧
      (DecryptPrivateKey toyPrims liveCtx
        (EncryptPrivateKey toyPrims liveCtx (some sampleSalt) (some sampleIV) sampleKeyUpper
          samplePass KeyVersion1).ret.encryptedKey
        samplePass sampleSalt KeyVersion1).ret = ⟨sampleKey, none⟩ ∧
      sampleKey ≠ sampleKeyUpper) := by
  decide

/-! ## Verification before decryption -/

/-- C2. Under a live context, for a blob that decodes to at least 48 bytes
whose last 32 bytes differ from the HMAC-SHA256, under the MAC key derived from
passphrase, salt and version, of the bytes before them, `DecryptPrivateKey`
returns "HMAC verification failed" with an empty string, after the operations
up to `hmac.Equal` only: neither `aes.NewCipher` nor `XORKeyStream` runs. Any
other such call, with another passphrase or another blob, returns the same
values. -/
theorem C2_verify_before_decrypt (P : Prims) (ctx : Context) (blob : GoString)
    (data p salt : Bytes) (v : KeyVersion)
    (hctx : ctx.Err = none)
    (hdec : hexDecodeString blob = .ok data)
    (hlen : 48 ≤ data.length)
    (hmis : data.drop (data.length - 32)
      ≠ P.hmacSHA256 (deriveKey P p salt v).2 (data.take (data.length - 32))) :
    (DecryptPrivateKey P ctx blob p salt v).ret = ⟨[], some .hmacFailed⟩ ∧
    (DecryptPrivateKey P ctx blob p salt v).ops = verifyOps salt v ∧
    Op.newCipher ∉ (DecryptPrivateKey P ctx blob p salt v).ops ∧
    Op.xorKeyStream ∉ (DecryptPrivateKey P ctx blob p salt v).ops ∧
    (∀ (ctx2 : Context) (blob2 : GoString) (data2 p2 salt2 : Bytes) (v2 : KeyVersion),
      ctx2.Err = none → hexDecodeString blob2 = .ok data2 → 48 ≤ data2.length →
      data2.drop (data2.length - 32)
        ≠ P.hmacSHA256 (deriveKey P p2 salt2 v2).2 (data2.take (data2.length - 32)) →
      (DecryptPrivateKey P ctx2 blob2 p2 salt2 v2).ret
        = (DecryptPrivateKey P ctx blob p salt v).ret) := by
  have key : ∀ (ctx2 : Context) (blob2 : GoString) (data2 p2 salt2 : Bytes) (v2 : KeyVersion),
      ctx2.Err = none → hexDecodeString blob2 = .ok data2 → 48 ≤ data2.length →
      data2.drop (data2.length - 32)
        ≠ P.hmacSHA256 (deriveKey P p2 salt2 v2).2 (data2.take (data2.length - 32)) →
      DecryptPrivateKey P ctx2 blob2 p2 salt2 v2
        = decryptFail (verifyOps salt2 v2) .hmacFailed := by
    intro ctx2 blob2 data2 p2 salt2 v2 h1 h2 h3 h4
    have h5 : ¬ data2.length < 16 + 32 := by omega
    simp only [DecryptPrivateKey, h1, h2, aesBlockSize, sha256Size, h5, if_false, ne_eq, h4,
      not_false_eq_true, if_true, verifyOps]
  have h0 := key ctx blob data p salt v hctx hdec hlen hmis
  refine ⟨by rw [h0]; rfl, by rw [h0]; rfl, ?_, ?_, ?_⟩
  · rw [h0]; simp [decryptFail, verifyOps]
  · rw [h0]; simp [decryptFail, verifyOps]
  · intro ctx2 blob2 data2 p2 salt2 v2 h1 h2 h3 h4
    rw [h0, key ctx2 blob2 data2 p2 salt2 v2 h1 h2 h3 h4]
    rfl


set_option maxRecDepth 100000 in
/-- The sample blob under a wrong passphrase. -/
theorem C2_verify_before_decrypt_witness :
    (DecryptPrivateKey toyPrims liveCtx sampleBlob wrongPass sampleSalt KeyVersion1).ret
      = ⟨[], some .hmacFailed⟩ ∧
    (DecryptPrivateKey toyPrims liveCtx sampleBlob wrongPass sampleSalt KeyVersion1).ops
      = verifyOps sampleSalt KeyVersion1 ∧
    Op.newCipher ∉
      (DecryptPrivateKey toyPrims liveCtx sampleBlob wrongPass sampleSalt KeyVersion1).ops ∧
    Op.xorKeyStream ∉
      (DecryptPrivateKey toyPrims liveCtx sampleBlob wrongPass sampleSalt KeyVersion1).ops ∧
    (∀ (ctx2 : Context) (blob2 : GoString) (data2 p2 salt2 : Bytes) (v2 : KeyVersion),
      ctx2.Err = none → hexDecodeString blob2 = .ok data2 → 48 ≤ data2.length →
      data2.drop (data2.length - 32)
        ≠ toyPrims.hmacSHA256 (deriveKey toyPrims p2 salt2 v2).2
            (data2.take (data2.length - 32)) →
      (DecryptPrivateKey toyPrims ctx2 blob2 p2 salt2 v2).ret
        = (DecryptPrivateKey toyPrims liveCtx sampleBlob wrongPass sampleSalt
            KeyVersion1).ret) :=
  C2_verify_before_decrypt toyPrims liveCtx sampleBlob (decoded sampleBlob) wrongPass
    sampleSalt KeyVersion1 rfl (by decide) (by decide) (by decide)

/-! ## Blobs that are too short -/

/-- C4. Under a live context, for a blob that is valid hex, and any passphrase,
salt and version, `DecryptPrivateKey` returns "encrypted key too short" if and
only if the decoded length is below 16 + 32 = 48; it then returns after the
context check and the hex decoding, with no call of `deriveKey`; and a blob of
exactly 48 decoded bytes does not get that error. -/
theorem C4_too_short (P : Prims) (ctx : Context) (blob : GoString) (data p salt : Bytes)
    (v : KeyVersion) (hctx : ctx.Err = none) (hdec : hexDecodeString blob = .ok data) :
    ((DecryptPrivateKey P ctx blob p salt v).ret.err = some .tooShort
      ↔ data.length < 16 + 32) ∧
    (data.length < 48 →
      DecryptPrivateKey P ctx blob p salt v = ⟨[.ctxDone, .hexDecode], ⟨[], some .tooShort⟩⟩ ∧
      ∀ s w, Op.deriveKey s w ∉ (DecryptPrivateKey P ctx blob p salt v).ops) ∧
    (data.length = 48 → (DecryptPrivateKey P ctx blob p salt v).ret.err ≠ some .tooShort) := by
  have hshort : data.length < 48 →
      DecryptPrivateKey P ctx blob p salt v
        = ⟨[.ctxDone, .hexDecode], ⟨[], some .tooShort⟩⟩ := by
    intro h
    have h5 : data.length < 16 + 32 := by omega
    simp only [DecryptPrivateKey, hctx, hdec, aesBlockSize, sha256Size, h5, if_true,
      decryptFail]
  have hlong : 48 ≤ data.length →
      (DecryptPrivateKey P ctx blob p salt v).ret.err ≠ some .tooShort := by
    intro h
    have h5 : ¬ data.length < 16 + 32 := by omega
    simp only [DecryptPrivateKey, hctx, hdec, aesBlockSize, sha256Size, h5, if_false]
    split
    · simp [decryptFail]
    · split <;> simp [decryptFail]
  refine ⟨⟨?_, ?_⟩, ?_, ?_⟩
  · intro h
    by_contra hn
    exact hlong (by omega) h
  · intro h
    rw [hshort (by omega)]
  · intro h
    refine ⟨hshort h, ?_⟩
    intro s w
    rw [hshort h]
    simp
  · intro h
    exact hlong (by omega)

set_option maxRecDepth 100000 in
/-- A blob of 47 bytes and a blob of 48 bytes. -/
theorem C4_too_short_witness :
    (((DecryptPrivateKey toyPrims liveCtx (hexEncodeToString (List.replicate 47 0)) samplePass
        sampleSalt KeyVersion1).ret.err = some .tooShort
      ↔ (List.replicate 47 (0 : Byte)).length < 16 + 32) ∧
    ((List.replicate 47 (0 : Byte)).length < 48 →
      DecryptPrivateKey toyPrims liveCtx (hexEncodeToString (List.replicate 47 0)) samplePass
        sampleSalt KeyVersion1 = ⟨[.ctxDone, .hexDecode], ⟨[], some .tooShort⟩⟩ ∧
      ∀ s w, Op.deriveKey s w ∉ (DecryptPrivateKey toyPrims liveCtx
        (hexEncodeToString (List.replicate 47 0)) samplePass sampleSalt KeyVersion1).ops) ∧
    ((List.replicate 47 (0 : Byte)).length = 48 →
      (DecryptPrivateKey toyPrims liveCtx (hexEncodeToString (List.replicate 47 0)) samplePass
        sampleSalt KeyVersion1).ret.err ≠ some .tooShort)) ∧
    (DecryptPrivateKey toyPrims liveCtx (hexEncodeToString (List.replicate 48 0)) samplePass
        sampleSalt KeyVersion1).ret.err = some .hmacFailed :=
  ⟨C4_too_short toyPrims liveCtx (hexEncodeToString (List.replicate 47 0))
    (List.replicate 47 0) samplePass sampleSalt KeyVersion1 rfl (hexDecode_encode _),
   by decide⟩


/-! ## Validation of the private key -/

theorem TrimPrefix_append (r : GoString) : TrimPrefix (ascii "0x" ++ r) (ascii "0x") = r := by
  have h2 : (ascii "0x") = [(48 : Byte), (120 : Byte)] := by decide
  simp [TrimPrefix, h2, List.isPrefixOf]

theorem TrimPrefix_of_not_isPrefixOf (r : GoString)
    (h : (ascii "0x").isPrefixOf r = false) : TrimPrefix r (ascii "0x") = r := by
  simp [TrimPrefix, h]

theorem EncryptPrivateKey_congr (P : Prims) (ctx : Context) (saltRead ivRead : Option Bytes)
    (k1 k2 : GoString) (p : Bytes) (v : KeyVersion)
    (h : TrimPrefix k1 (ascii "0x") = TrimPrefix k2 (ascii "0x")) :
    EncryptPrivateKey P ctx saltRead ivRead k1 p v
      = EncryptPrivateKey P ctx saltRead ivRead k2 p v := by
  simp only [EncryptPrivateKey, h]

theorem EncryptPrivateKey_err_empty (P : Prims) (ctx : Context)
    (saltRead ivRead : Option Bytes) (k : GoString) (p : Bytes) (v : KeyVersion)
    (e : CryptoError) (h : (EncryptPrivateKey P ctx saltRead ivRead k p v).ret.err = some e) :
    (EncryptPrivateKey P ctx saltRead ivRead k p v).ret = ⟨[], [], none, some e⟩ := by
  revert h
  cases hctx : ctx.Err with
  | some c => simp [EncryptPrivateKey, hctx, encryptFail]
  | none =>
    by_cases hlen : (TrimPrefix k (ascii "0x")).length = 64
    · cases hdec : hexDecodeString (TrimPrefix k (ascii "0x")) with
      | error he => simp [EncryptPrivateKey, hctx, hlen, hdec, encryptFail]
      | ok keyBytes =>
        cases hpk : P.HexToECDSA (TrimPrefix k (ascii "0x")) with
        | none => simp [EncryptPrivateKey, hctx, hlen, hdec, hpk, encryptFail]
        | some pk =>
          cases saltRead with
          | none => simp [EncryptPrivateKey, hctx, hlen, hdec, hpk, encryptFail]
          | some salt =>
            cases hblock : aesNewCipher P (deriveKey P p salt v).1 with
            | none => simp [EncryptPrivateKey, hctx, hlen, hdec, hpk, hblock, encryptFail]
            | some block =>
              cases ivRead with
              | none => simp [EncryptPrivateKey, hctx, hlen, hdec, hpk, hblock, encryptFail]
              | some iv => simp [EncryptPrivateKey, hctx, hlen, hdec, hpk, hblock]
    · simp [EncryptPrivateKey, hctx, hlen, encryptFail]

/-- C5 (as amended). Under a live context `EncryptPrivateKey` strips one
leading `0x` and validates what remains: if the remainder has not exactly 64
bytes, or is not the hex encoding of 32 bytes, or is rejected by
`crypto.HexToECDSA`, the call returns an error with empty encrypted key, empty
address and nil salt, before any random draw or key derivation. For every
remainder `r` the input `0x` followed by `r` is validated as `r` is, and for
every `r` that does not itself start with `0x` the inputs `r` and `0x` followed
by `r` give the same run. -/
theorem C5_key_validation (P : Prims) (ctx : Context) (saltRead ivRead : Option Bytes)
    (k : GoString) (p : Bytes) (v : KeyVersion) (hctx : ctx.Err = none) :
    (((TrimPrefix k (ascii "0x")).length ≠ 64 ∨
      (∀ keyBytes, hexDecodeString (TrimPrefix k (ascii "0x")) = .ok keyBytes →
        keyBytes.length ≠ 32) ∨
      P.HexToECDSA (TrimPrefix k (ascii "0x")) = none) →
      ∃ e, (EncryptPrivateKey P ctx saltRead ivRead k p v).ret = ⟨[], [], none, some e⟩ ∧
        (e = .invalidKeyLength (TrimPrefix k (ascii "0x")).length ∨ (∃ he, e = .hex he)
          ∨ e = .parseKey) ∧
        Op.randRead ∉ (EncryptPrivateKey P ctx saltRead ivRead k p v).ops ∧
        ∀ s w, Op.deriveKey s w ∉ (EncryptPrivateKey P ctx saltRead ivRead k p v).ops) ∧
    (∀ r : GoString, TrimPrefix (ascii "0x" ++ r) (ascii "0x") = r) ∧
    (∀ r : GoString,
      (EncryptPrivateKey P ctx saltRead ivRead (ascii "0x" ++ r) p v).ret.err = none →
      r.length = 64 ∧ (∃ keyBytes, hexDecodeString r = .ok keyBytes ∧ keyBytes.length = 32) ∧
        (P.HexToECDSA r).isSome = true) ∧
    (∀ r : GoString, (ascii "0x").isPrefixOf r = false →
      EncryptPrivateKey P ctx saltRead ivRead (ascii "0x" ++ r) p v
        = EncryptPrivateKey P ctx saltRead ivRead r p v) := by
  refine ⟨?_, TrimPrefix_append, ?_, ?_⟩
  · intro h
    by_cases hlen : (TrimPrefix k (ascii "0x")).length = 64
    · cases hdec : hexDecodeString (TrimPrefix k (ascii "0x")) with
      | error he =>
        refine ⟨.hex he, ?_, Or.inr (Or.inl ⟨he, rfl⟩), ?_, ?_⟩ <;>
          simp [EncryptPrivateKey, hctx, hlen, hdec, encryptFail]
      | ok keyBytes =>
        have h32 : keyBytes.length = 32 := by
          have := hexDecode_length _ _ hdec
          omega
        have hpk : P.HexToECDSA (TrimPrefix k (ascii "0x")) = none := by
          rcases h with h | h | h
          · exact absurd hlen h
          · exact absurd h32 (h keyBytes hdec)
          · exact h
        refine ⟨.parseKey, ?_, Or.inr (Or.inr rfl), ?_, ?_⟩ <;>
          simp [EncryptPrivateKey, hctx, hlen, hdec, hpk, encryptFail]
    · refine ⟨.invalidKeyLength _, ?_, Or.inl rfl, ?_, ?_⟩ <;>
        simp [EncryptPrivateKey, hctx, hlen, encryptFail]
  · intro r h
    obtain ⟨keyBytes, _, _, pk, _, _, hlen, hdec, hpk, _⟩ :=
      EncryptPrivateKey_ok P ctx saltRead ivRead _ p v h
    rw [TrimPrefix_append] at hlen hdec hpk
    refine ⟨hlen, ⟨keyBytes, hdec, ?_⟩, by rw [hpk]; rfl⟩
    have := hexDecode_length _ _ hdec
    omega
  · intro r h
    apply EncryptPrivateKey_congr
    rw [TrimPrefix_append, TrimPrefix_of_not_isPrefixOf r h]

set_option maxRecDepth 100000 in
/-- The zero scalar is rejected, with or without the prefix. -/
theorem C5_key_validation_witness :
    (EncryptPrivateKey toyPrims liveCtx (some sampleSalt) (some sampleIV) zeroKey samplePass
      KeyVersion1).ret = ⟨[], [], none, some .parseKey⟩ ∧
    EncryptPrivateKey toyPrims liveCtx (some sampleSalt) (some sampleIV) (ascii "0x" ++ zeroKey)
        samplePass KeyVersion1
      = EncryptPrivateKey toyPrims liveCtx (some sampleSalt) (some sampleIV) zeroKey samplePass
        KeyVersion1 ∧
    EncryptPrivateKey toyPrims liveCtx (some sampleSalt) (some sampleIV)
        (ascii "0x" ++ sampleKey) samplePass KeyVersion1
      = EncryptPrivateKey toyPrims liveCtx (some sampleSalt) (some sampleIV) sampleKey
        samplePass KeyVersion1 :=
  ⟨by decide,
   (C5_key_validation toyPrims liveCtx (some sampleSalt) (some sampleIV) zeroKey samplePass
      KeyVersion1 rfl).2.2.2 zeroKey (by decide),
   (C5_key_validation toyPrims liveCtx (some sampleSalt) (some sampleIV) zeroKey samplePass
      KeyVersion1 rfl).2.2.2 sampleKey (by decide)⟩

set_option maxRecDepth 100000 in
/-- C5 (as stated) fails at the remainder `r` made of `0x` and the sample key:
`r` is accepted as an input, and `0x` followed by `r` is rejected for its
length, 66 after one prefix is stripped. -/
theorem C5_counterexample :
    (EncryptPrivateKey toyPrims liveCtx (some sampleSalt) (some sampleIV) sampleKey0x
      samplePass KeyVersion1).ret.err = none ∧
    sampleKey0x0x = ascii "0x" ++ sampleKey0x ∧
    (EncryptPrivateKey toyPrims liveCtx (some sampleSalt) (some sampleIV) sampleKey0x0x
      samplePass KeyVersion1).ret = ⟨[], [], none, some (.invalidKeyLength 66)⟩ := by
  decide


/-! ## Blob format -/

theorem aesNewCipher_some (P : Prims) (key : Bytes) (block : Bytes → Bytes)
    (h : aesNewCipher P key = some block) : block = P.aesEncrypt key := by
  unfold aesNewCipher at h
  split at h
  · injection h with h; exact h.symm
  · cases h

/-! ## Lemmas: the blocks of the CFB stream -/

theorem xorByte_val (a b : Byte) : (xorByte a b).val = Nat.xor a.val b.val := by
  have h : Nat.xor a.val b.val < 2 ^ 8 := Nat.xor_lt_two_pow a.isLt b.isLt
  show Nat.xor a.val b.val % 256 = Nat.xor a.val b.val
  exact Nat.mod_eq_of_lt h

theorem xorFrom_length (out : Bytes) (src : Bytes) :
    ∀ m, (xorFrom out m src).length = src.length := by
  induction src with
  | nil => intro m; rfl
  | cons s src ih => intro m; simp only [xorFrom, List.length_cons, ih]

theorem xorFrom_getD (out : Bytes) (src : Bytes) :
    ∀ m j, j < src.length →
      (xorFrom out m src).getD j 0 = xorByte (src.getD j 0) (out.getD (m + j) 0) := by
  induction src with
  | nil => intro m j hj; simp at hj
  | cons s src ih =>
    intro m j hj
    cases j with
    | zero => simp [xorFrom]
    | succ j =>
      have hj2 : j < src.length := by simpa using hj
      have := ih (m + 1) j hj2
      simp only [xorFrom, List.getD_cons_succ, this]
      have e : m + 1 + j = m + (j + 1) := by omega
      rw [e]

theorem writeFrom_eq (ds : Bytes) :
    ∀ (next : Bytes) (m : Nat), m + ds.length ≤ next.length →
      writeFrom next m ds = next.take m ++ ds ++ next.drop (m + ds.length) := by
  induction ds with
  | nil =>
    intro next m _
    simp [writeFrom]
  | cons d ds ih =>
    intro next m h
    simp only [List.length_cons] at h
    have hlen : (next.set m d).length = next.length := List.length_set _ _ _
    rw [writeFrom, ih (next.set m d) (m + 1) (by rw [hlen]; omega)]
    have hm : m < next.length := by omega
    have hs : next.set m d = (next.take m ++ [d]) ++ next.drop (m + 1) := by
      rw [List.set_eq_take_append_cons_drop]
      simp [hm]
    have h1 : (next.set m d).take (m + 1) = next.take m ++ [d] := by
      rw [hs]
      exact List.take_left' (by simp [List.length_take, Nat.min_eq_left (Nat.le_of_lt hm)])
    have h2 : (next.set m d).drop (m + 1 + ds.length) = next.drop (m + 1 + ds.length) :=
      List.drop_set_of_lt _ _ (by omega)
    rw [h1, h2]
    have e : m + (ds.length + 1) = m + 1 + ds.length := by omega
    simp only [List.length_cons, e, List.append_assoc, List.singleton_append]

theorem cfbLoop_reload (b : Bytes → Bytes) (decrypt : Bool) (next out src : Bytes) :
    cfbLoop b decrypt next out 16 src = cfbLoop b decrypt next (b next) 0 src := by
  cases src with
  | nil => rfl
  | cons s src => simp [cfbLoop, aesBlockSize]

theorem cfbLoop_within (b : Bytes → Bytes) (src : Bytes) :
    ∀ (m : Nat) (next out rest : Bytes), m + src.length ≤ 16 →
      cfbLoop b false next out m (src ++ rest)
        = xorFrom out m src
          ++ cfbLoop b false (writeFrom next m (xorFrom out m src)) out (m + src.length) rest := by
  induction src with
  | nil => intro m next out rest _; simp [xorFrom, writeFrom]
  | cons s src ih =>
    intro m next out rest h
    simp only [List.length_cons] at h
    have hm : ¬ m = aesBlockSize := by simp only [aesBlockSize]; omega
    have e : m + (src.length + 1) = m + 1 + src.length := by omega
    simp only [List.cons_append, cfbLoop, hm, if_false, Bool.false_eq_true, xorFrom, writeFrom,
      List.length_cons, e, List.append_eq]
    rw [ih (m + 1) _ out rest (by omega)]

theorem cfbXORKeyStream_two_blocks (b : Bytes → Bytes) (iv src : Bytes)
    (hiv : iv.length = 16) (hsrc : src.length = 32) :
    cfbXORKeyStream b false iv src
      = xorFrom (b iv) 0 (src.take 16)
        ++ xorFrom (b (xorFrom (b iv) 0 (src.take 16))) 0 (src.drop 16) := by
  have ha : (src.take 16).length = 16 := by rw [List.length_take, hsrc]; rfl
  have hb : (src.drop 16).length = 16 := by rw [List.length_drop, hsrc]
  have hca : (xorFrom (b iv) 0 (src.take 16)).length = 16 := by rw [xorFrom_length, ha]
  have hw : writeFrom iv 0 (xorFrom (b iv) 0 (src.take 16))
      = xorFrom (b iv) 0 (src.take 16) := by
    rw [writeFrom_eq _ iv 0 (by rw [hca, hiv])]
    simp [hca, hiv, List.drop_of_length_le]
  have hsplit : src = src.take 16 ++ (src.drop 16 ++ []) := by simp
  unfold cfbXORKeyStream
  simp only [aesBlockSize]
  rw [cfbLoop_reload]
  conv => lhs; rw [hsplit]
  rw [cfbLoop_within b (src.take 16) 0 iv (b iv) _ (by rw [ha]), hw, ha]
  simp only [Nat.zero_add]
  rw [cfbLoop_reload, cfbLoop_within b (src.drop 16) 0 _ _ [] (by rw [hb])]
  simp [cfbLoop]

theorem hexEncode_lower (bs : Bytes) : ∀ ch ∈ hexEncodeToString bs, isLowerHex ch = true := by
  have hn : ∀ n : Fin 16, isLowerHex (hextable n.val) = true := by decide
  induction bs with
  | nil => intro ch h; simp [hexEncodeToString] at h
  | cons v rest ih =>
    intro ch h
    simp only [hexEncodeToString, List.mem_cons] at h
    have h1 : v.val / 16 < 16 := by have := v.isLt; omega
    have h2 : v.val % 16 < 16 := Nat.mod_lt _ (by decide)
    rcases h with h | h | h
    · rw [h]; exact hn ⟨_, h1⟩
    · rw [h]; exact hn ⟨_, h2⟩
    · exact ih ch h


theorem randRead_some (n : Nat) (source : Option (Nat → Byte)) (buf : Bytes)
    (h : randRead n source = some buf) :
    ∃ f, source = some f ∧ buf = (List.range n).map f ∧ buf.length = n := by
  cases source with
  | none => simp [randRead] at h
  | some f =>
    simp only [randRead, Option.map_some', Option.some.injEq] at h
    exact ⟨f, rfl, h.symm, by rw [← h]; simp⟩

theorem getD_take_lt (l : Bytes) (n j : Nat) (h : j < n) :
    (l.take n).getD j 0 = l.getD j 0 := by
  simp only [List.getD_eq_getElem?_getD, List.getElem?_take, h, if_true]

theorem getD_drop_add (l : Bytes) (n j : Nat) :
    (l.drop n).getD j 0 = l.getD (n + j) 0 := by
  simp only [List.getD_eq_getElem?_getD, List.getElem?_drop]

theorem two_blocks_bytes (b : Bytes → Bytes) (iv src : Bytes)
    (hiv : iv.length = 16) (hsrc : src.length = 32) :
    (∀ j, j < 16 → ((cfbXORKeyStream b false iv src).getD j 0).val
      = Nat.xor (src.getD j 0).val ((b iv).getD j 0).val) ∧
    (∀ j, j < 16 → ((cfbXORKeyStream b false iv src).getD (16 + j) 0).val
      = Nat.xor (src.getD (16 + j) 0).val
          ((b ((cfbXORKeyStream b false iv src).take 16)).getD j 0).val) := by
  have ha : (src.take 16).length = 16 := by rw [List.length_take, hsrc]; rfl
  have hb : (src.drop 16).length = 16 := by rw [List.length_drop, hsrc]
  have hca : (xorFrom (b iv) 0 (src.take 16)).length = 16 := by rw [xorFrom_length, ha]
  have h2 := cfbXORKeyStream_two_blocks b iv src hiv hsrc
  have htake : (cfbXORKeyStream b false iv src).take 16 = xorFrom (b iv) 0 (src.take 16) := by
    rw [h2]; exact List.take_left' hca
  constructor
  · intro j hj
    rw [h2, List.getD_append _ _ _ _ (by rw [hca]; exact hj),
      xorFrom_getD _ _ 0 j (by rw [ha]; exact hj), xorByte_val, getD_take_lt _ _ _ hj,
      Nat.zero_add]
  · intro j hj
    rw [htake, h2, List.getD_append_right _ _ _ _ (by rw [hca]; omega), hca]
    have e : 16 + j - 16 = j := by omega
    rw [e, xorFrom_getD _ _ 0 j (by rw [hb]; exact hj), xorByte_val, getD_drop_add, Nat.zero_add]


/-- C6. If `EncryptPrivateKey`, with its salt buffer of 16 bytes and its IV
buffer of `aes.BlockSize` bytes filled by `rand.Read`, returns
`(blob, address, salt)` without error, then `blob` is the lower-case hex
encoding, 160 characters, of the 80 bytes `iv ++ c ++ t`. Here `iv` is the 16
bytes drawn for the IV in this call and `salt` the 16 bytes drawn for the salt;
`c` has the 32 bytes of the decoded key and is its CFB encryption under the
cipher key: byte `j` of the first block is byte `j` of the key xor byte `j` of
the AES encryption of `iv`, and byte `j` of the second block is byte `16 + j`
of the key xor byte `j` of the AES encryption of the first block of `c`; `t` is
the 32-byte HMAC-SHA256 under the MAC key of `iv ++ c`, the assembled IV and
ciphertext; and the cipher key and the MAC key are the two halves of
`deriveKey` on the passphrase, the returned salt and the version. -/
theorem C6_blob_format (P : Prims) (ctx : Context) (saltSource ivSource : Option (Nat → Byte))
    (k : GoString) (p : Bytes) (v : KeyVersion) (blob address : GoString) (salt : Bytes)
    (hmacLen : ∀ key msg, (P.hmacSHA256 key msg).length = 32)
    (henc : (EncryptPrivateKey P ctx (randRead 16 saltSource) (randRead aesBlockSize ivSource)
      k p v).ret = ⟨blob, address, some salt, none⟩) :
    ∃ (saltSrc ivSrc : Nat → Byte) (iv c t keyBytes : Bytes),
      saltSource = some saltSrc ∧ ivSource = some ivSrc ∧
      salt = (List.range 16).map saltSrc ∧ salt.length = 16 ∧
      iv = (List.range 16).map ivSrc ∧ iv.length = 16 ∧
      hexDecodeString (TrimPrefix k (ascii "0x")) = .ok keyBytes ∧ keyBytes.length = 32 ∧
      blob = hexEncodeToString (iv ++ c ++ t) ∧
      (∀ ch ∈ blob, isLowerHex ch = true) ∧
      hexDecodeString blob = .ok (iv ++ c ++ t) ∧
      (iv ++ c ++ t).length = 80 ∧ blob.length = 160 ∧
      c.length = 32 ∧ c.length = keyBytes.length ∧ t.length = 32 ∧
      c = cfbXORKeyStream (P.aesEncrypt (deriveKey P p salt v).1) false iv keyBytes ∧
      (∀ j, j < 16 → (c.getD j 0).val
        = Nat.xor (keyBytes.getD j 0).val
            ((P.aesEncrypt (deriveKey P p salt v).1 iv).getD j 0).val) ∧
      (∀ j, j < 16 → (c.getD (16 + j) 0).val
        = Nat.xor (keyBytes.getD (16 + j) 0).val
            ((P.aesEncrypt (deriveKey P p salt v).1 (c.take 16)).getD j 0).val) ∧
      t = P.hmacSHA256 (deriveKey P p salt v).2 (iv ++ c) ∧
      deriveKey P p salt v
        = ((P.argon2IDKey p (salt ++ [v]) 1 (32 * 1024) 4 64).take 32,
           (P.argon2IDKey p (salt ++ [v]) 1 (32 * 1024) 4 64).drop 32) := by
  have herr : (EncryptPrivateKey P ctx (randRead 16 saltSource) (randRead aesBlockSize ivSource)
      k p v).ret.err = none := by
    rw [henc]
  obtain ⟨keyBytes, salt1, iv, pk, block, _, hlen, hdec, _, hsalt, hiv, hblock, heq⟩ :=
    EncryptPrivateKey_ok P ctx _ _ k p v herr
  rw [heq] at henc
  simp only [EncryptResult.mk.injEq, Option.some.injEq, and_true] at henc
  obtain ⟨hblob, _, hs⟩ := henc
  subst hs
  have hb := aesNewCipher_some P _ block hblock
  subst hb
  obtain ⟨saltSrc, hsS, hsaltEq, hsaltLen⟩ := randRead_some 16 saltSource salt1 hsalt
  obtain ⟨ivSrc, hiS, hivEq, hivLen⟩ := randRead_some aesBlockSize ivSource iv hiv
  have hivLen16 : iv.length = 16 := hivLen
  have hk32 : keyBytes.length = 32 := by
    have := hexDecode_length _ _ hdec
    omega
  have hc : (cfbXORKeyStream (P.aesEncrypt (deriveKey P p salt1 v).1) false iv keyBytes).length
      = 32 := by
    rw [cfbXORKeyStream_length, hk32]
  have h80 : (iv ++ cfbXORKeyStream (P.aesEncrypt (deriveKey P p salt1 v).1) false iv keyBytes
      ++ P.hmacSHA256 (deriveKey P p salt1 v).2
        (iv ++ cfbXORKeyStream (P.aesEncrypt (deriveKey P p salt1 v).1) false iv keyBytes)).length
      = 80 := by
    simp only [List.length_append, hc, hmacLen, hivLen16]
  obtain ⟨hfirst, hsecond⟩ :=
    two_blocks_bytes (P.aesEncrypt (deriveKey P p salt1 v).1) iv keyBytes hivLen16 hk32
  refine ⟨saltSrc, ivSrc, iv, _, _, keyBytes, hsS, hiS, hsaltEq, hsaltLen, hivEq, hivLen16, hdec,
    hk32, hblob.symm, ?_, ?_, h80, ?_, hc, by rw [hc, hk32], hmacLen _ _, rfl, hfirst, hsecond,
    rfl, rfl⟩
  · rw [← hblob]; exact hexEncode_lower _
  · rw [← hblob]; exact hexDecode_encode _
  · rw [← hblob, hexEncode_length, h80]

set_option maxRecDepth 100000 in
/-- The format of the sample blob, with the sample random sources. -/
theorem C6_blob_format_witness :
    ∃ (saltSrc ivSrc : Nat → Byte) (iv c t keyBytes : Bytes),
      some sampleSaltSource = some saltSrc ∧ some sampleIVSource = some ivSrc ∧
      sampleSalt = (List.range 16).map saltSrc ∧ sampleSalt.length = 16 ∧
      iv = (List.range 16).map ivSrc ∧ iv.length = 16 ∧
      hexDecodeString (TrimPrefix sampleKey (ascii "0x")) = .ok keyBytes ∧
      keyBytes.length = 32 ∧
      sampleBlob = hexEncodeToString (iv ++ c ++ t) ∧
      (∀ ch ∈ sampleBlob, isLowerHex ch = true) ∧
      hexDecodeString sampleBlob = .ok (iv ++ c ++ t) ∧
      (iv ++ c ++ t).length = 80 ∧ sampleBlob.length = 160 ∧
      c.length = 32 ∧ c.length = keyBytes.length ∧ t.length = 32 ∧
      c = cfbXORKeyStream (toyPrims.aesEncrypt (deriveKey toyPrims samplePass sampleSalt
        KeyVersion1).1) false iv keyBytes ∧
      (∀ j, j < 16 → (c.getD j 0).val
        = Nat.xor (keyBytes.getD j 0).val
            ((toyPrims.aesEncrypt (deriveKey toyPrims samplePass sampleSalt KeyVersion1).1
              iv).getD j 0).val) ∧
      (∀ j, j < 16 → (c.getD (16 + j) 0).val
        = Nat.xor (keyBytes.getD (16 + j) 0).val
            ((toyPrims.aesEncrypt (deriveKey toyPrims samplePass sampleSalt KeyVersion1).1
              (c.take 16)).getD j 0).val) ∧
      t = toyPrims.hmacSHA256 (deriveKey toyPrims samplePass sampleSalt KeyVersion1).2
        (iv ++ c) ∧
      deriveKey toyPrims samplePass sampleSalt KeyVersion1
        = ((toyPrims.argon2IDKey samplePass (sampleSalt ++ [KeyVersion1]) 1 (32 * 1024) 4
            64).take 32,
           (toyPrims.argon2IDKey samplePass (sampleSalt ++ [KeyVersion1]) 1 (32 * 1024) 4
            64).drop 32) :=
  C6_blob_format toyPrims liveCtx (some sampleSaltSource) (some sampleIVSource) sampleKey
    samplePass KeyVersion1 sampleBlob
    (EncryptPrivateKey toyPrims liveCtx (some sampleSalt) (some sampleIV) sampleKey
      samplePass KeyVersion1).ret.address
    sampleSalt toyPrims_hmacLen (by decide)

/-! ## Key derivation -/

/-- C7. For every passphrase, salt and version `deriveKey` returns the first
32 and the last 32 bytes of the 64-byte output of Argon2id on the passphrase
and the salt followed by the version byte, with time 1, memory 32 * 1024 KiB
and parallelism 4; both keys have 32 bytes, and equal arguments give equal
pairs. -/
theorem C7_deriveKey (P : Prims) (p s : Bytes) (v : KeyVersion)
    (argonLen : ∀ pw salt t m th n, (P.argon2IDKey pw salt t m th n).length = n) :
    deriveKey P p s v
      = ((P.argon2IDKey p (s ++ [v]) 1 (32 * 1024) 4 64).take 32,
         (P.argon2IDKey p (s ++ [v]) 1 (32 * 1024) 4 64).drop (64 - 32)) ∧
    (P.argon2IDKey p (s ++ [v]) 1 (32 * 1024) 4 64).length = 64 ∧
    (deriveKey P p s v).1.length = 32 ∧ (deriveKey P p s v).2.length = 32 ∧
    (deriveKey P p s v).1 ++ (deriveKey P p s v).2
      = P.argon2IDKey p (s ++ [v]) 1 (32 * 1024) 4 64 ∧
    (∀ (p2 s2 : Bytes) (v2 : KeyVersion), p2 = p → s2 = s → v2 = v →
      deriveKey P p2 s2 v2 = deriveKey P p s v) := by
  have h64 := argonLen p (s ++ [v]) 1 (32 * 1024) 4 64
  refine ⟨rfl, h64, ?_, ?_, ?_, ?_⟩
  · simp only [deriveKey, argon2Time, argon2Memory, argon2Threads, argon2KeyLen,
      List.length_take, h64]
    rfl
  · simp only [deriveKey, argon2Time, argon2Memory, argon2Threads, argon2KeyLen,
      List.length_drop, h64]
  · simp only [deriveKey, List.take_append_drop]
    rfl
  · intro p2 s2 v2 hp hs hv
    rw [hp, hs, hv]

/-- The keys of the sample passphrase and salt. -/
theorem C7_deriveKey_witness :
    deriveKey toyPrims samplePass sampleSalt KeyVersion1
      = ((toyPrims.argon2IDKey samplePass (sampleSalt ++ [KeyVersion1]) 1 (32 * 1024) 4 64).take
          32,
         (toyPrims.argon2IDKey samplePass (sampleSalt ++ [KeyVersion1]) 1 (32 * 1024) 4 64).drop
          (64 - 32)) ∧
    (deriveKey toyPrims samplePass sampleSalt KeyVersion1).1.length = 32 ∧
    (deriveKey toyPrims samplePass sampleSalt KeyVersion1).2.length = 32 :=
  have h := C7_deriveKey toyPrims samplePass sampleSalt KeyVersion1 toyPrims_argon2Len
  ⟨h.1, h.2.2.1, h.2.2.2.1⟩


/-! ## Records with an empty salt -/

/-- C8 (as amended). `DecryptPrivateKey` has no case for an empty salt: under a
live context, for a blob that decodes to at least 48 bytes, it calls
`deriveKey` on the empty salt, so Argon2id runs on the one-byte salt made of
the version, and then compares the tags; on a mismatch it returns "HMAC
verification failed", the error of a wrong passphrase, and otherwise it goes on
to the cipher. It never returns "encrypted key too short" for such a blob. -/
theorem C8_empty_salt (P : Prims) (ctx : Context) (blob : GoString) (data p : Bytes)
    (v : KeyVersion) (hctx : ctx.Err = none) (hdec : hexDecodeString blob = .ok data)
    (hlen : 48 ≤ data.length) :
    (DecryptPrivateKey P ctx blob p [] v).ops.take 5 = verifyOps [] v ∧
    Op.deriveKey [] v ∈ (DecryptPrivateKey P ctx blob p [] v).ops ∧
    deriveKey P p [] v
      = ((P.argon2IDKey p [v] 1 (32 * 1024) 4 64).take 32,
         (P.argon2IDKey p [v] 1 (32 * 1024) 4 64).drop 32) ∧
    (data.drop (data.length - 32)
        ≠ P.hmacSHA256 (deriveKey P p [] v).2 (data.take (data.length - 32)) →
      (DecryptPrivateKey P ctx blob p [] v).ret = ⟨[], some .hmacFailed⟩) ∧
    (data.drop (data.length - 32)
        = P.hmacSHA256 (deriveKey P p [] v).2 (data.take (data.length - 32)) →
      (DecryptPrivateKey P ctx blob p [] v).ret.err = none ∨
      (DecryptPrivateKey P ctx blob p [] v).ret.err = some .createCipher) ∧
    (DecryptPrivateKey P ctx blob p [] v).ret.err ≠ some .tooShort := by
  have h5 : ¬ data.length < 16 + 32 := by omega
  by_cases hm : data.drop (data.length - 32)
      = P.hmacSHA256 (deriveKey P p [] v).2 (data.take (data.length - 32))
  · cases hb : aesNewCipher P (deriveKey P p [] v).1 with
    | none =>
      have h0 : DecryptPrivateKey P ctx blob p [] v
          = decryptFail (verifyOps [] v ++ [.newCipher]) .createCipher := by
        simp only [DecryptPrivateKey, hctx, hdec, aesBlockSize, sha256Size, h5, if_false, ne_eq,
          hm, not_true_eq_false, hb, verifyOps, List.cons_append, List.nil_append]
      rw [h0]
      refine ⟨rfl, by simp [decryptFail, verifyOps], rfl, ?_, ?_, ?_⟩
      · intro hne; exact absurd hm hne
      · intro _; right; rfl
      · simp [decryptFail]
    | some block =>
      have h0 : DecryptPrivateKey P ctx blob p [] v
          = ⟨verifyOps [] v ++ [.newCipher, .xorKeyStream],
             ⟨hexEncodeToString (cfbXORKeyStream block true (data.take 16)
                ((data.take (data.length - 32)).drop 16)), none⟩⟩ := by
        simp only [DecryptPrivateKey, hctx, hdec, aesBlockSize, sha256Size, h5, if_false, ne_eq,
          hm, not_true_eq_false, hb, verifyOps, List.cons_append, List.nil_append]
      rw [h0]
      refine ⟨rfl, by simp [verifyOps], rfl, ?_, ?_, ?_⟩
      · intro hne; exact absurd hm hne
      · intro _; left; rfl
      · simp
  · have h0 : DecryptPrivateKey P ctx blob p [] v
        = decryptFail (verifyOps [] v) .hmacFailed := by
      simp only [DecryptPrivateKey, hctx, hdec, aesBlockSize, sha256Size, h5, if_false, ne_eq,
        hm, not_false_eq_true, if_true, verifyOps]
    rw [h0]
    refine ⟨rfl, by simp [decryptFail, verifyOps], rfl, ?_, ?_, ?_⟩
    · intro _; rfl
    · intro heq; exact absurd heq hm
    · simp [decryptFail]

set_option maxRecDepth 100000 in
/-- The sample blob with an empty salt. -/
theorem C8_empty_salt_witness :
    (DecryptPrivateKey toyPrims liveCtx sampleBlob samplePass [] KeyVersion1).ops.take 5
      = verifyOps [] KeyVersion1 ∧
    Op.deriveKey [] KeyVersion1
      ∈ (DecryptPrivateKey toyPrims liveCtx sampleBlob samplePass [] KeyVersion1).ops ∧
    (DecryptPrivateKey toyPrims liveCtx sampleBlob samplePass [] KeyVersion1).ret.err
      ≠ some .tooShort :=
  have h := C8_empty_salt toyPrims liveCtx sampleBlob (decoded sampleBlob) samplePass
    KeyVersion1 rfl (by decide) (by decide)
  ⟨h.1, h.2.1, h.2.2.2.2.2⟩

set_option maxRecDepth 100000 in
/-- C8 (as stated) fails: on the sample blob with the right passphrase and an
empty salt `DecryptPrivateKey` runs `deriveKey` on the empty salt and returns
"HMAC verification failed", the very values it returns for a wrong passphrase
with the right salt. -/
theorem C8_counterexample :
    DecryptPrivateKey toyPrims liveCtx sampleBlob samplePass [] KeyVersion1
      = ⟨[.ctxDone, .hexDecode, .deriveKey [] KeyVersion1, .hmacSum, .hmacEqual],
         ⟨[], some .hmacFailed⟩⟩ ∧
    (DecryptPrivateKey toyPrims liveCtx sampleBlob samplePass [] KeyVersion1).ret
      = (DecryptPrivateKey toyPrims liveCtx sampleBlob wrongPass sampleSalt KeyVersion1).ret := by
  constructor
  · rfl
  · decide

/-! ## Cancellation -/

theorem EncryptPrivateKey_ops_ctxDone (P : Prims) (ctx : Context)
    (saltRead ivRead : Option Bytes) (k : GoString) (p : Bytes) (v : KeyVersion) :
    ∃ rest, (EncryptPrivateKey P ctx saltRead ivRead k p v).ops = .ctxDone :: rest ∧
      Op.ctxDone ∉ rest := by
  cases hctx : ctx.Err with
  | some c => exact ⟨[], by simp [EncryptPrivateKey, hctx, encryptFail]⟩
  | none =>
    by_cases hlen : (TrimPrefix k (ascii "0x")).length = 64
    · cases hdec : hexDecodeString (TrimPrefix k (ascii "0x")) with
      | error he => exact ⟨_, by simp [EncryptPrivateKey, hctx, hlen, hdec, encryptFail]; rfl, by simp⟩
      | ok keyBytes =>
        cases hpk : P.HexToECDSA (TrimPrefix k (ascii "0x")) with
        | none =>
          exact ⟨_, by simp [EncryptPrivateKey, hctx, hlen, hdec, hpk, encryptFail]; rfl, by simp⟩
        | some pk =>
          cases saltRead with
          | none =>
            exact ⟨_, by simp [EncryptPrivateKey, hctx, hlen, hdec, hpk, encryptFail]; rfl,
              by simp⟩
          | some salt =>
            cases hblock : aesNewCipher P (deriveKey P p salt v).1 with
            | none =>
              exact ⟨_, by simp [EncryptPrivateKey, hctx, hlen, hdec, hpk, hblock, encryptFail]; rfl,
                by simp⟩
            | some block =>
              cases ivRead with
              | none =>
                exact ⟨_, by
                  simp [EncryptPrivateKey, hctx, hlen, hdec, hpk, hblock, encryptFail]; rfl,
                  by simp⟩
              | some iv =>
                exact ⟨_, by simp [EncryptPrivateKey, hctx, hlen, hdec, hpk, hblock]; rfl,
                  by simp⟩
    · exact ⟨_, by simp [EncryptPrivateKey, hctx, hlen, encryptFail]; rfl, by simp⟩


theorem DecryptPrivateKey_ops_ctxDone (P : Prims) (ctx : Context) (blob : GoString)
    (p salt : Bytes) (v : KeyVersion) :
    ∃ rest, (DecryptPrivateKey P ctx blob p salt v).ops = .ctxDone :: rest ∧
      Op.ctxDone ∉ rest := by
  cases hctx : ctx.Err with
  | some c => exact ⟨[], by simp [DecryptPrivateKey, hctx, decryptFail]⟩
  | none =>
    cases hdec : hexDecodeString blob with
    | error he => exact ⟨_, by simp [DecryptPrivateKey, hctx, hdec, decryptFail]; rfl, by simp⟩
    | ok data =>
      by_cases hlen : data.length < aesBlockSize + sha256Size
      · exact ⟨_, by simp [DecryptPrivateKey, hctx, hdec, hlen, decryptFail]; rfl, by simp⟩
      · by_cases hm : data.drop (data.length - sha256Size)
            = P.hmacSHA256 (deriveKey P p salt v).2 (data.take (data.length - sha256Size))
        · cases hb : aesNewCipher P (deriveKey P p salt v).1 with
          | none =>
            exact ⟨_, by simp [DecryptPrivateKey, hctx, hdec, hlen, hm, hb, decryptFail]; rfl,
              by simp⟩
          | some block =>
            exact ⟨_, by simp [DecryptPrivateKey, hctx, hdec, hlen, hm, hb]; rfl, by simp⟩
        · exact ⟨_, by simp [DecryptPrivateKey, hctx, hdec, hlen, hm, decryptFail]; rfl,
            by simp⟩

/-- C9. With a context that is already cancelled or past its deadline,
`EncryptPrivateKey` and `DecryptPrivateKey` return the error of the context
with empty results, whatever the other arguments are, and the check of the
context is the only operation of the run: no validation, no random draw, no key
derivation, no cipher and no HMAC. In every run of either function, cancelled
or not, the check of the context is the first operation and occurs once. -/
theorem C9_cancellation (P : Prims) (ctx : Context) (e : CtxErr) (hctx : ctx.Err = some e)
    (saltRead ivRead : Option Bytes) (k blob : GoString) (p salt : Bytes) (v : KeyVersion) :
    EncryptPrivateKey P ctx saltRead ivRead k p v
      = ⟨[.ctxDone], ⟨[], [], none, some (.ctx e)⟩⟩ ∧
    DecryptPrivateKey P ctx blob p salt v = ⟨[.ctxDone], ⟨[], some (.ctx e)⟩⟩ ∧
    (∀ (c : Context) (sR iR : Option Bytes) (k2 : GoString) (p2 : Bytes) (v2 : KeyVersion),
      ∃ rest, (EncryptPrivateKey P c sR iR k2 p2 v2).ops = .ctxDone :: rest ∧
        Op.ctxDone ∉ rest) ∧
    (∀ (c : Context) (b2 : GoString) (p2 s2 : Bytes) (v2 : KeyVersion),
      ∃ rest, (DecryptPrivateKey P c b2 p2 s2 v2).ops = .ctxDone :: rest ∧
        Op.ctxDone ∉ rest) := by
  refine ⟨?_, ?_, ?_, ?_⟩
  · simp only [EncryptPrivateKey, hctx, encryptFail]
  · simp only [DecryptPrivateKey, hctx, decryptFail]
  · intro c sR iR k2 p2 v2
    exact EncryptPrivateKey_ops_ctxDone P c sR iR k2 p2 v2
  · intro c b2 p2 s2 v2
    exact DecryptPrivateKey_ops_ctxDone P c b2 p2 s2 v2

/-- A context past its deadline, with a valid key and with the sample blob. -/
theorem C9_cancellation_witness :
    EncryptPrivateKey toyPrims ⟨some .deadlineExceeded⟩ (some sampleSalt) (some sampleIV)
        sampleKey samplePass KeyVersion1
      = ⟨[.ctxDone], ⟨[], [], none, some (.ctx .deadlineExceeded)⟩⟩ ∧
    DecryptPrivateKey toyPrims ⟨some .deadlineExceeded⟩ sampleBlob samplePass sampleSalt
        KeyVersion1
      = ⟨[.ctxDone], ⟨[], some (.ctx .deadlineExceeded)⟩⟩ :=
  have h := C9_cancellation toyPrims ⟨some .deadlineExceeded⟩ .deadlineExceeded rfl
    (some sampleSalt) (some sampleIV) sampleKey sampleBlob samplePass sampleSalt KeyVersion1
  ⟨h.1, h.2.1⟩


/-! ## The account store -/

theorem upsertRow_rowsOf (r : Account) : ∀ db : Table,
    (db.map (fun x => x.Address)).Nodup → rowsOf (upsertRow db r) r.Address = [r]
  | [], _ => by simp [upsertRow, rowsOf]
  | x :: xs, hu => by
    have hu2 := List.nodup_cons.mp hu
    by_cases hx : x.Address = r.Address
    · have hnone : rowsOf xs r.Address = [] := by
        simp only [rowsOf, List.filter_eq_nil_iff, decide_eq_true_eq]
        intro y hy hya
        exact hu2.1 (List.mem_map.mpr ⟨y, hy, hya.trans hx.symm⟩)
      have hrec : updateRow x r = r := by
        cases r; cases x; simp_all [updateRow]
      simp only [rowsOf] at hnone
      simp only [upsertRow, hx, if_true, rowsOf, hrec, List.filter_cons, decide_True, hnone]
    · have ih := upsertRow_rowsOf r xs hu2.2
      simp only [rowsOf] at ih
      simp only [upsertRow, hx, if_false, rowsOf, List.filter_cons, decide_False, ih]
      simp

theorem upsertRow_addresses (r : Account) : ∀ db : Table,
    r.Address ∈ db.map (fun x => x.Address) →
    (upsertRow db r).map (fun x => x.Address) = db.map (fun x => x.Address)
  | [], h => by simp at h
  | x :: xs, h => by
    by_cases hx : x.Address = r.Address
    · simp [upsertRow, hx, updateRow]
    · have h2 : r.Address ∈ xs.map (fun x => x.Address) := by
        simp only [List.map_cons, List.mem_cons] at h
        rcases h with h | h
        · exact absurd h.symm hx
        · exact h
      simp [upsertRow, hx, upsertRow_addresses r xs h2]

theorem upsertRow_addresses_new (r : Account) : ∀ db : Table,
    r.Address ∉ db.map (fun x => x.Address) →
    (upsertRow db r).map (fun x => x.Address) = db.map (fun x => x.Address) ++ [r.Address]
  | [], _ => by simp [upsertRow]
  | x :: xs, h => by
    simp only [List.map_cons, List.mem_cons, not_or] at h
    have hx : ¬ x.Address = r.Address := fun e => h.1 e.symm
    simp [upsertRow, hx, upsertRow_addresses_new r xs h.2]

theorem upsertRow_nodup (r : Account) (db : Table)
    (hu : (db.map (fun x => x.Address)).Nodup) :
    ((upsertRow db r).map (fun x => x.Address)).Nodup := by
  by_cases h : r.Address ∈ db.map (fun x => x.Address)
  · rw [upsertRow_addresses r db h]; exact hu
  · rw [upsertRow_addresses_new r db h]
    exact List.Nodup.append hu (List.nodup_singleton _) (by simpa using h)

theorem upsertRow_others (r : Account) (a : GoString) (ha : a ≠ r.Address) : ∀ db : Table,
    rowsOf (upsertRow db r) a = rowsOf db a
  | [] => by
    have : ¬ r.Address = a := fun e => ha e.symm
    simp [upsertRow, rowsOf, this]
  | x :: xs => by
    by_cases hx : x.Address = r.Address
    · have hxa : ¬ x.Address = a := fun e => ha (e.symm.trans hx)
      simp [upsertRow, hx, rowsOf, List.filter_cons, hxa, ha.symm, updateRow]
    · have ih := upsertRow_others r a ha xs
      simp only [rowsOf] at ih
      simp only [upsertRow, hx, if_false, rowsOf, List.filter_cons, ih]

theorem saveRecord_nodup (isHexAddress : GoString → Bool) (db : Table) (a : Account)
    (hu : (db.map (fun x => x.Address)).Nodup) :
    ((saveRecord isHexAddress db a).1.map (fun x => x.Address)).Nodup := by
  unfold saveRecord SaveAccount
  split
  · exact hu
  · split
    · exact upsertRow_nodup _ db hu
    · exact hu

/-- C10 (as amended). For every table with unique addresses and every two
records `A` and `A2` with the same address, accepted by `common.IsHexAddress`,
the record `A2` satisfying the `CHECK` constraints of the table (encrypted key
and salt made of one hex digit or more, key version at least 1), `SaveAccount`
of `A` followed by `SaveAccount` of `A2` returns no error the second time and
leaves exactly one row for that address, equal to `A2` in alias, encrypted key,
salt and key version; the addresses stay unique and the rows of every other
address are those of the start. -/
theorem C10_upsert_replacement (isHexAddress : GoString → Bool) (db : Table) (A A2 : Account)
    (hu : (db.map (fun x => x.Address)).Nodup)
    (haddr : A.Address = A2.Address)
    (hhex : isHexAddress A2.Address = true)
    (hrow : rowChecks A2 = true) :
    (saveRecord isHexAddress (saveRecord isHexAddress db A).1 A2).2 = none ∧
    rowsOf (saveRecord isHexAddress (saveRecord isHexAddress db A).1 A2).1 A2.Address = [A2] ∧
    ((saveRecord isHexAddress (saveRecord isHexAddress db A).1 A2).1.map
      (fun x => x.Address)).Nodup ∧
    (∀ a, a ≠ A2.Address →
      rowsOf (saveRecord isHexAddress (saveRecord isHexAddress db A).1 A2).1 a = rowsOf db a) := by
  have hu1 := saveRecord_nodup isHexAddress db A hu
  have hsave : ∀ t : Table, saveRecord isHexAddress t A2 = (upsertRow t A2, none) := by
    intro t
    have hA2 : (⟨A2.Alias, A2.Address, A2.EncryptedKey, A2.Salt, A2.KeyVersion⟩ : Account) = A2 :=
      rfl
    simp only [saveRecord, SaveAccount, hhex, Bool.not_true, Bool.false_eq_true, if_false, hA2,
      hrow, if_true]
  refine ⟨by rw [hsave], ?_, ?_, ?_⟩
  · rw [hsave]
    exact upsertRow_rowsOf A2 _ hu1
  · rw [hsave]
    exact upsertRow_nodup A2 _ hu1
  · intro a ha
    rw [hsave, upsertRow_others A2 a ha]
    unfold saveRecord SaveAccount
    split
    · rfl
    · split
      · exact upsertRow_others _ a (by rw [haddr]; exact ha) db
      · rfl

set_option maxRecDepth 100000 in
/-- Two saves for the sample address into a table that holds another account. -/
theorem C10_upsert_replacement_witness :
    (saveRecord IsHexAddress (saveRecord IsHexAddress [recordC] recordA).1 recordB).2 = none ∧
    rowsOf (saveRecord IsHexAddress (saveRecord IsHexAddress [recordC] recordA).1 recordB).1
      recordB.Address = [recordB] ∧
    (saveRecord IsHexAddress (saveRecord IsHexAddress [recordC] recordA).1 recordB).1
      = [recordC, recordB] :=
  have h := C10_upsert_replacement IsHexAddress [recordC] recordA recordB (by decide) rfl
    (by decide) (by decide)
  ⟨h.1, h.2.1, by decide⟩


/-! ## Tampering with the stored blob -/

theorem hexDecode_set : ∀ (s : GoString) (i : Nat) (c : Byte) (d d2 : Bytes),
    hexDecodeString s = .ok d → hexDecodeString (s.set i c) = .ok d2 →
    ∃ b, d2 = d.set (i / 2) b
  | [], i, c, d, d2, h, h2 => by
    simp only [List.set_nil, hexDecodeString] at h h2
    cases h; cases h2
    exact ⟨0, rfl⟩
  | [p], i, c, d, d2, h, _ => by
    simp only [hexDecodeString] at h
    split at h <;> cases h
  | p :: q :: rest, 0, c, d, d2, h, h2 => by
    simp only [List.set_cons_zero, hexDecodeString] at h h2
    cases hr : hexDecodeString rest with
    | error e =>
      rw [hr] at h
      split at h
      · cases h
      · split at h <;> cases h
    | ok t =>
      rw [hr] at h h2
      split at h
      · cases h
      · split at h
        · cases h
        · split at h2
          · cases h2
          · split at h2
            · cases h2
            · cases h; cases h2
              exact ⟨_, rfl⟩
  | p :: q :: rest, 1, c, d, d2, h, h2 => by
    simp only [List.set_cons_succ, List.set_cons_zero, hexDecodeString] at h h2
    cases hr : hexDecodeString rest with
    | error e =>
      rw [hr] at h
      split at h
      · cases h
      · split at h <;> cases h
    | ok t =>
      rw [hr] at h h2
      split at h
      · cases h
      · split at h
        · cases h
        · split at h2
          · cases h2
          · split at h2
            · cases h2
            · cases h; cases h2
              exact ⟨_, rfl⟩
  | p :: q :: rest, i + 2, c, d, d2, h, h2 => by
    simp only [List.set_cons_succ, hexDecodeString] at h h2
    split at h
    · cases h
    · rename_i a ha
      split at h
      · cases h
      · rename_i b hb
        simp only [ha, hb] at h2
        cases hr : hexDecodeString rest with
        | error e => rw [hr] at h; cases h
        | ok t =>
          cases hr2 : hexDecodeString (rest.set i c) with
          | error e => rw [hr2] at h2; cases h2
          | ok t2 =>
            rw [hr] at h
            rw [hr2] at h2
            cases h; cases h2
            obtain ⟨x, hx⟩ := hexDecode_set rest i c t t2 hr hr2
            refine ⟨x, ?_⟩
            have : (i + 2) / 2 = i / 2 + 1 := by omega
            rw [this, List.set_cons_succ, hx]

theorem DecryptPrivateKey_congr (P : Prims) (ctx : Context) (blob1 blob2 : GoString)
    (p salt : Bytes) (v : KeyVersion) (h : hexDecodeString blob1 = hexDecodeString blob2) :
    DecryptPrivateKey P ctx blob1 p salt v = DecryptPrivateKey P ctx blob2 p salt v := by
  simp only [DecryptPrivateKey, h]

theorem DecryptPrivateKey_mismatch (P : Prims) (ctx : Context) (blob : GoString)
    (data p salt : Bytes) (v : KeyVersion)
    (hctx : ctx.Err = none) (hdec : hexDecodeString blob = .ok data) (hlen : 48 ≤ data.length)
    (hmis : data.drop (data.length - 32)
      ≠ P.hmacSHA256 (deriveKey P p salt v).2 (data.take (data.length - 32))) :
    DecryptPrivateKey P ctx blob p salt v = decryptFail (verifyOps salt v) .hmacFailed := by
  have h5 : ¬ data.length < 16 + 32 := by omega
  simp only [DecryptPrivateKey, hctx, hdec, aesBlockSize, sha256Size, h5, if_false, ne_eq, hmis,
    not_false_eq_true, if_true, verifyOps]

theorem DecryptPrivateKey_released (P : Prims) (ctx : Context) (blob : GoString)
    (data p salt : Bytes) (v : KeyVersion)
    (hdec : hexDecodeString blob = .ok data)
    (hok : (DecryptPrivateKey P ctx blob p salt v).ret.err = none) :
    data.drop (data.length - 32)
      = P.hmacSHA256 (deriveKey P p salt v).2 (data.take (data.length - 32)) := by
  by_contra hmis
  cases hctx : ctx.Err with
  | some e => simp [DecryptPrivateKey, hctx, decryptFail] at hok
  | none =>
    by_cases hlen : data.length < 16 + 32
    · simp [DecryptPrivateKey, hctx, hdec, aesBlockSize, sha256Size, hlen, decryptFail] at hok
    · rw [DecryptPrivateKey_mismatch P ctx blob data p salt v hctx hdec (by omega) hmis] at hok
      simp [decryptFail] at hok


theorem decrypt_of_encrypt (P : Prims) (ctx ctx2 : Context) (saltRead ivRead : Option Bytes)
    (k : GoString) (p : Bytes) (v : KeyVersion) (blob address : GoString) (salt : Bytes)
    (hmacLen : ∀ key msg, (P.hmacSHA256 key msg).length = 32)
    (hivLen : ∀ iv, ivRead = some iv → iv.length = 16)
    (hctx2 : ctx2.Err = none)
    (henc : (EncryptPrivateKey P ctx saltRead ivRead k p v).ret
      = ⟨blob, address, some salt, none⟩) :
    ∃ keyBytes iv c : Bytes,
      hexDecodeString (TrimPrefix k (ascii "0x")) = .ok keyBytes ∧
      iv.length = 16 ∧ c.length = 32 ∧
      hexDecodeString blob
        = .ok (iv ++ c ++ P.hmacSHA256 (deriveKey P p salt v).2 (iv ++ c)) ∧
      (DecryptPrivateKey P ctx2 blob p salt v).ret = ⟨hexEncodeToString keyBytes, none⟩ := by
  have herr : (EncryptPrivateKey P ctx saltRead ivRead k p v).ret.err = none := by
    rw [henc]
  obtain ⟨keyBytes, salt1, iv, pk, block, _, hlen, hdec, _, _, hiv, hblock, heq⟩ :=
    EncryptPrivateKey_ok P ctx saltRead ivRead k p v herr
  rw [heq] at henc
  simp only [EncryptResult.mk.injEq, Option.some.injEq, and_true] at henc
  obtain ⟨hblob, _, hsalt⟩ := henc
  subst hsalt
  have hk32 : keyBytes.length = 32 := by
    have := hexDecode_length _ _ hdec
    omega
  have hb : hexDecodeString blob = .ok (iv ++ cfbXORKeyStream block false iv keyBytes
      ++ P.hmacSHA256 (deriveKey P p salt1 v).2
        (iv ++ cfbXORKeyStream block false iv keyBytes)) := by
    rw [← hblob]; exact hexDecode_encode _
  refine ⟨keyBytes, iv, _, hdec, hivLen iv hiv, ?_, hb, ?_⟩
  · rw [cfbXORKeyStream_length, hk32]
  · rw [DecryptPrivateKey_layout P ctx2 blob iv _ _ p salt1 v hctx2 hb (hivLen iv hiv)
      (hmacLen _ _)]
    simp only [ne_eq, not_true_eq_false, if_false, hblock, cfbXORKeyStream_roundtrip]

/-- C3 (as amended). Let `blob` be returned by a successful `EncryptPrivateKey`
and let bit `j` of its byte `i` be flipped in the stored hex string. Then
`DecryptPrivateKey` with the original passphrase, salt and version, under a
live context, returns: the hex decoding error when the string is no longer
valid hex; the original key when the string decodes to the same bytes (a hex
letter that changed case); and otherwise, the decoded bytes being different,
"HMAC verification failed" whenever the flip lies in the tag (bytes 96 to 159
of the string) and, for a flip in the IV or the ciphertext, whenever the
HMAC-SHA256 of the changed `iv ++ ciphertext` differs from the stored tag. A
key is returned for changed bytes only in that last case of two messages with
the same HMAC. -/
theorem C3_tamper (P : Prims) (ctx ctx2 : Context) (saltRead ivRead : Option Bytes)
    (k : GoString) (p : Bytes) (v : KeyVersion) (blob address : GoString) (salt : Bytes)
    (i j : Nat)
    (hmacLen : ∀ key msg, (P.hmacSHA256 key msg).length = 32)
    (hivLen : ∀ iv, ivRead = some iv → iv.length = 16)
    (hctx2 : ctx2.Err = none)
    (henc : (EncryptPrivateKey P ctx saltRead ivRead k p v).ret
      = ⟨blob, address, some salt, none⟩) :
    ∃ keyBytes data : Bytes,
      hexDecodeString (TrimPrefix k (ascii "0x")) = .ok keyBytes ∧
      hexDecodeString blob = .ok data ∧ data.length = 80 ∧
      (∀ e, hexDecodeString (flipBit blob i j) = .error e →
        (DecryptPrivateKey P ctx2 (flipBit blob i j) p salt v).ret
          = ⟨[], some (.decodeEncrypted e)⟩) ∧
      (hexDecodeString (flipBit blob i j) = .ok data →
        (DecryptPrivateKey P ctx2 (flipBit blob i j) p salt v).ret
          = ⟨hexEncodeToString keyBytes, none⟩) ∧
      (∀ data2, hexDecodeString (flipBit blob i j) = .ok data2 → data2 ≠ data →
        (96 ≤ i →
          (DecryptPrivateKey P ctx2 (flipBit blob i j) p salt v).ret
            = ⟨[], some .hmacFailed⟩) ∧
        (i < 96 → P.hmacSHA256 (deriveKey P p salt v).2 (data2.take 48) ≠ data.drop 48 →
          (DecryptPrivateKey P ctx2 (flipBit blob i j) p salt v).ret
            = ⟨[], some .hmacFailed⟩) ∧
        ((DecryptPrivateKey P ctx2 (flipBit blob i j) p salt v).ret.err = none →
          i < 96 ∧ P.hmacSHA256 (deriveKey P p salt v).2 (data2.take 48) = data.drop 48)) := by
  obtain ⟨keyBytes, iv, c, hkey, hiv, hc, hdec, horig⟩ :=
    decrypt_of_encrypt P ctx ctx2 saltRead ivRead k p v blob address salt hmacLen hivLen hctx2
      henc
  have ht := hmacLen (deriveKey P p salt v).2 (iv ++ c)
  have h80 : (iv ++ c ++ P.hmacSHA256 (deriveKey P p salt v).2 (iv ++ c)).length = 80 := by
    simp only [List.length_append, hiv, hc, ht]
  have h48 : (iv ++ c).length = 48 := by simp only [List.length_append, hiv, hc]
  have htake : (iv ++ c ++ P.hmacSHA256 (deriveKey P p salt v).2 (iv ++ c)).take 48
      = iv ++ c := List.take_left' h48
  have hdrop : (iv ++ c ++ P.hmacSHA256 (deriveKey P p salt v).2 (iv ++ c)).drop 48
      = P.hmacSHA256 (deriveKey P p salt v).2 (iv ++ c) := List.drop_left' h48
  refine ⟨keyBytes, _, hkey, hdec, h80, ?_, ?_, ?_⟩
  · intro e he
    simp only [DecryptPrivateKey, hctx2, he, decryptFail]
  · intro hsame
    rw [DecryptPrivateKey_congr P ctx2 (flipBit blob i j) blob p salt v (hsame.trans hdec.symm)]
    exact horig
  · intro data2 hd2 hne
    obtain ⟨b, hb⟩ := hexDecode_set blob i _ _ data2 hdec hd2
    have hlen2 : data2.length = 80 := by rw [hb, List.length_set, h80]
    have hhigh : 96 ≤ i → data2.drop (data2.length - 32)
        ≠ P.hmacSHA256 (deriveKey P p salt v).2 (data2.take (data2.length - 32)) := by
      intro hi heq
      have ht2 : data2.take 48 = iv ++ c := by
        rw [hb, List.set_take, htake]
        exact List.set_eq_of_length_le (by rw [h48]; omega)
      rw [hlen2] at heq
      simp only [Nat.reduceSub] at heq
      rw [ht2] at heq
      apply hne
      rw [← List.take_append_drop 48 data2, ht2, heq]
    have hlow : i < 96 → data2.drop 48
        = P.hmacSHA256 (deriveKey P p salt v).2 (iv ++ c) := by
      intro hi
      rw [hb, List.drop_set_of_lt _ _ (by omega), hdrop]
    refine ⟨?_, ?_, ?_⟩
    · intro hi
      rw [DecryptPrivateKey_mismatch P ctx2 _ data2 p salt v hctx2 hd2 (by omega) (hhigh hi)]
      rfl
    · intro hi hcol
      have hmis : data2.drop (data2.length - 32)
          ≠ P.hmacSHA256 (deriveKey P p salt v).2 (data2.take (data2.length - 32)) := by
        rw [hlen2]
        simp only [Nat.reduceSub]
        rw [hlow hi]
        rw [hdrop] at hcol
        exact fun h => hcol h.symm
      rw [DecryptPrivateKey_mismatch P ctx2 _ data2 p salt v hctx2 hd2 (by omega) hmis]
      rfl
    · intro hok
      have hrel := DecryptPrivateKey_released P ctx2 _ data2 p salt v hd2 hok
      have hi : i < 96 := by
        by_contra hge
        exact hhigh (by omega) hrel
      refine ⟨hi, ?_⟩
      rw [hlen2] at hrel
      simp only [Nat.reduceSub] at hrel
      rw [hdrop, ← hrel, hlow hi]


set_option maxRecDepth 100000 in
/-- A flip in the tag of the sample blob: bit 0 of byte 120. -/
theorem C3_tamper_witness :
    (DecryptPrivateKey toyPrims liveCtx (flipBit sampleBlob 120 0) samplePass sampleSalt
      KeyVersion1).ret = ⟨[], some .hmacFailed⟩ :=
  match C3_tamper toyPrims liveCtx liveCtx (some sampleSalt) (some sampleIV) sampleKey
    samplePass KeyVersion1 sampleBlob
    (EncryptPrivateKey toyPrims liveCtx (some sampleSalt) (some sampleIV) sampleKey
      samplePass KeyVersion1).ret.address
    sampleSalt 120 0 toyPrims_hmacLen (fun iv h => by cases h; exact sampleIV_length) rfl
    (by decide) with
  | ⟨_, data, _, hd, _, _, _, h⟩ =>
    (h (decoded (flipBit sampleBlob 120 0)) (by decide)
      (by
        intro heq
        have h2 : hexDecodeString sampleBlob = .ok (decoded sampleBlob) := by decide
        rw [hd] at h2
        injection h2 with h2
        rw [h2] at heq
        exact absurd heq (by decide))).1 (by decide)

set_option maxRecDepth 100000 in
/-- C3 (as stated) fails on the sample blob. Flipping bit 5 of byte 5, the
letter `b`, gives a different string with `B`, and `DecryptPrivateKey` returns
the key without error. Flipping bit 7 of byte 0 gives a byte that is no hex
digit, and `DecryptPrivateKey` returns the hex decoding error, not "HMAC
verification failed". -/
theorem C3_counterexample :
    (EncryptPrivateKey toyPrims liveCtx (some sampleSalt) (some sampleIV) sampleKey samplePass
      KeyVersion1).ret.err = none ∧
    (flipBit sampleBlob 5 5 ≠ sampleBlob ∧
      (DecryptPrivateKey toyPrims liveCtx (flipBit sampleBlob 5 5) samplePass sampleSalt
        KeyVersion1).ret = ⟨sampleKey, none⟩) ∧
    (DecryptPrivateKey toyPrims liveCtx (flipBit sampleBlob 0 7) samplePass sampleSalt
      KeyVersion1).ret = ⟨[], some (.decodeEncrypted (.invalidByte 176))⟩ := by
  decide

set_option maxRecDepth 100000 in
/-- C10 (as stated) fails for a second record that the table does not admit:
after `SaveAccount` of `recordA`, `SaveAccount` of a record with the same
address and an empty salt violates `valid_hex_salt`, returns an error and
leaves the row of `recordA`. -/
theorem C10_counterexample :
    IsHexAddress sampleAddress = true ∧
    recordEmptySalt.Address = recordA.Address ∧
    saveRecord IsHexAddress (saveRecord IsHexAddress [] recordA).1 recordEmptySalt
      = ([recordA], some .saveFailed) := by
  decide

/-! ## Lookup by alias or address -/

theorem eq_of_address_eq (db : Table) (hu : (db.map (fun x => x.Address)).Nodup)
    (r r2 : Account) (hr : r ∈ db) (hr2 : r2 ∈ db) (h : r.Address = r2.Address) : r = r2 :=
  List.inj_on_of_nodup_map hu hr hr2 h

theorem GetAccount_first (db : Table) (x : GoString) (pre post : Table) (r : Account)
    (hdb : db = pre ++ r :: post) (hr : matchesIdentifier x r = true)
    (hpre : ∀ q ∈ pre, matchesIdentifier x q = false) :
    GetAccount db x = (some r, none) := by
  have hfind : db.find? (matchesIdentifier x) = some r := by
    rw [List.find?_eq_some]
    exact ⟨hr, pre, post, hdb, fun a ha => by simp [hpre a ha]⟩
  simp only [GetAccount, hfind]

theorem GetAccount_some (db : Table) (x : GoString) (r : Account)
    (h : (GetAccount db x).1 = some r) :
    r ∈ db ∧ matchesIdentifier x r = true ∧ GetAccount db x = (some r, none) := by
  unfold GetAccount at h ⊢
  cases hf : db.find? (matchesIdentifier x) with
  | none => simp [hf] at h
  | some acc =>
    simp only [hf, Option.some.injEq] at h ⊢
    subst h
    exact ⟨List.mem_of_find?_eq_some hf, List.find?_some hf, rfl⟩

theorem GetAccount_none (db : Table) (x : GoString)
    (h : ∀ r ∈ db, matchesIdentifier x r = false) :
    GetAccount db x = (none, some (.notFound x)) := by
  have hf : db.find? (matchesIdentifier x) = none := by
    rw [List.find?_eq_none]
    intro r hr
    simp [h r hr]
  simp only [GetAccount, hf]

theorem GetAccount_exists (db : Table) (x : GoString) (r : Account) (hr : r ∈ db)
    (hm : matchesIdentifier x r = true) : ∃ r2, GetAccount db x = (some r2, none) := by
  cases hf : db.find? (matchesIdentifier x) with
  | none =>
    rw [List.find?_eq_none] at hf
    exact absurd hm (hf r hr)
  | some acc => exact ⟨acc, by simp only [GetAccount, hf]⟩


/-- C11 (as amended). For every table with unique addresses and every
identifier `x`, `GetAccount` returns the first row, in the order in which the
table yields its rows, whose address or alias is `x`, and "account not found"
when no row has address or alias `x`. If a record has address `x` and no other
record has alias `x`, that record is returned; if no record has address `x`,
a record returned has alias `x`. The address match has no priority over an
alias match of an earlier row. -/
theorem C11_lookup (db : Table) (x : GoString)
    (hu : (db.map (fun r => r.Address)).Nodup) :
    (∀ (pre post : Table) (r : Account), db = pre ++ r :: post →
      (r.Address = x ∨ r.Alias = x) → (∀ q ∈ pre, q.Address ≠ x ∧ q.Alias ≠ x) →
      GetAccount db x = (some r, none)) ∧
    (∀ r, (GetAccount db x).1 = some r →
      r ∈ db ∧ (r.Address = x ∨ r.Alias = x) ∧ (GetAccount db x).2 = none) ∧
    ((∀ r ∈ db, r.Address ≠ x ∧ r.Alias ≠ x) ↔
      GetAccount db x = (none, some (.notFound x))) ∧
    (∀ r ∈ db, r.Address = x → (∀ r2 ∈ db, r2.Alias = x → r2 = r) →
      GetAccount db x = (some r, none)) ∧
    (∀ r, (GetAccount db x).1 = some r → (∀ r2 ∈ db, r2.Address ≠ x) → r.Alias = x) := by
  have hmatch : ∀ r : Account, matchesIdentifier x r = true ↔ (r.Address = x ∨ r.Alias = x) := by
    intro r
    simp [matchesIdentifier]
  have hnomatch : ∀ r : Account,
      matchesIdentifier x r = false ↔ (r.Address ≠ x ∧ r.Alias ≠ x) := by
    intro r
    simp [matchesIdentifier]
  refine ⟨?_, ?_, ⟨?_, ?_⟩, ?_, ?_⟩
  · intro pre post r hdb hr hpre
    exact GetAccount_first db x pre post r hdb ((hmatch r).mpr hr)
      (fun q hq => (hnomatch q).mpr (hpre q hq))
  · intro r h
    obtain ⟨hmem, hm, heq⟩ := GetAccount_some db x r h
    exact ⟨hmem, (hmatch r).mp hm, by rw [heq]⟩
  · intro h
    exact GetAccount_none db x (fun r hr => (hnomatch r).mpr (h r hr))
  · intro h r hr
    apply (hnomatch r).mp
    cases hm : matchesIdentifier x r with
    | false => rfl
    | true =>
      obtain ⟨r2, h2⟩ := GetAccount_exists db x r hr hm
      rw [h2] at h
      cases h
  · intro r hr haddr hal
    obtain ⟨r2, h2⟩ := GetAccount_exists db x r hr ((hmatch r).mpr (Or.inl haddr))
    have hfst : (GetAccount db x).1 = some r2 := by rw [h2]
    obtain ⟨hmem2, hm2, _⟩ := GetAccount_some db x r2 hfst
    have : r2 = r := by
      rcases (hmatch r2).mp hm2 with ha | ha
      · exact eq_of_address_eq db hu r2 r hmem2 hr (ha.trans haddr.symm)
      · exact hal r2 hmem2 ha
    rw [h2, this]
  · intro r h hno
    obtain ⟨hmem, hm, _⟩ := GetAccount_some db x r h
    rcases (hmatch r).mp hm with ha | ha
    · exact absurd ha (hno r hmem)
    · exact ha

set_option maxRecDepth 100000 in
/-- A lookup by address and a lookup by alias in a table of two accounts. -/
theorem C11_lookup_witness :
    GetAccount [recordC, recordB] sampleAddress = (some recordB, none) ∧
    GetAccount [recordC, recordB] (ascii "other") = (some recordC, none) :=
  have h := C11_lookup [recordC, recordB] sampleAddress (by decide)
  ⟨h.2.2.2.1 recordB (by decide) rfl (by decide), by decide⟩

set_option maxRecDepth 100000 in
/-- C11 (as stated) fails. After `SaveAccount` of `recordAliasC`, whose alias
is the address of `recordC`, and of `recordC`, the table holds a record with
that address, and `GetAccount` on that address returns `recordAliasC`, which
has another address. With the same two records in the other order it returns
`recordC`: the record returned is not a function of the set of records. -/
theorem C11_counterexample :
    saveRecord IsHexAddress (saveRecord IsHexAddress [] recordAliasC).1 recordC
      = ([recordAliasC, recordC], none) ∧
    recordC ∈ [recordAliasC, recordC] ∧
    GetAccount [recordAliasC, recordC] recordC.Address = (some recordAliasC, none) ∧
    recordAliasC.Address ≠ recordC.Address ∧
    GetAccount [recordC, recordAliasC] recordC.Address = (some recordC, none) := by
  decide


/-! ## Scrubbing of the secrets -/

theorem zeroize_eq (b : Bytes) : zeroize b = List.replicate b.length 0 := by
  induction b with
  | nil => rfl
  | cons x xs ih =>
    simp only [zeroize, List.map_cons, List.length_cons, List.replicate_succ] at ih ⊢
    rw [ih]

theorem encryptKeyBuffers_of_ops (P : Prims) (ctx : Context) (saltRead ivRead : Option Bytes)
    (k : GoString) (p : Bytes) (v : KeyVersion) (s : Bytes) (w : KeyVersion)
    (h : Op.deriveKey s w ∈ (EncryptPrivateKey P ctx saltRead ivRead k p v).ops) :
    saltRead = some s ∧ w = v ∧
    encryptKeyBuffers P ctx saltRead k p v
      = some ⟨(deriveKey P p s v).1, (deriveKey P p s v).2⟩ := by
  revert h
  cases hctx : ctx.Err with
  | some c => simp [EncryptPrivateKey, hctx, encryptFail]
  | none =>
    by_cases hlen : (TrimPrefix k (ascii "0x")).length = 64
    · cases hdec : hexDecodeString (TrimPrefix k (ascii "0x")) with
      | error he => simp [EncryptPrivateKey, hctx, hlen, hdec, encryptFail]
      | ok keyBytes =>
        cases hpk : P.HexToECDSA (TrimPrefix k (ascii "0x")) with
        | none => simp [EncryptPrivateKey, hctx, hlen, hdec, hpk, encryptFail]
        | some pk =>
          cases saltRead with
          | none => simp [EncryptPrivateKey, hctx, hlen, hdec, hpk, encryptFail]
          | some salt =>
            have hkb : encryptKeyBuffers P ctx (some salt) k p v
                = some ⟨(deriveKey P p salt v).1, (deriveKey P p salt v).2⟩ := by
              simp [encryptKeyBuffers, hctx, hlen, hdec, hpk]
            cases hblock : aesNewCipher P (deriveKey P p salt v).1 with
            | none =>
              intro h
              simp [EncryptPrivateKey, hctx, hlen, hdec, hpk, hblock, encryptFail] at h
              obtain ⟨h1, h2⟩ := h
              subst h1; subst h2
              exact ⟨rfl, rfl, hkb⟩
            | some block =>
              cases ivRead with
              | none =>
                intro h
                simp [EncryptPrivateKey, hctx, hlen, hdec, hpk, hblock, encryptFail] at h
                obtain ⟨h1, h2⟩ := h
                subst h1; subst h2
                exact ⟨rfl, rfl, hkb⟩
              | some iv =>
                intro h
                simp [EncryptPrivateKey, hctx, hlen, hdec, hpk, hblock] at h
                obtain ⟨h1, h2⟩ := h
                subst h1; subst h2
                exact ⟨rfl, rfl, hkb⟩
    · simp [EncryptPrivateKey, hctx, hlen, encryptFail]

theorem decryptKeyBuffers_of_ops (P : Prims) (ctx : Context) (blob : GoString)
    (p salt : Bytes) (v : KeyVersion) (s : Bytes) (w : KeyVersion)
    (h : Op.deriveKey s w ∈ (DecryptPrivateKey P ctx blob p salt v).ops) :
    s = salt ∧ w = v ∧
    decryptKeyBuffers P ctx blob p salt v
      = some ⟨(deriveKey P p salt v).1, (deriveKey P p salt v).2⟩ := by
  revert h
  cases hctx : ctx.Err with
  | some c => simp [DecryptPrivateKey, hctx, decryptFail]
  | none =>
    cases hdec : hexDecodeString blob with
    | error he => simp [DecryptPrivateKey, hctx, hdec, decryptFail]
    | ok data =>
      by_cases hlen : data.length < aesBlockSize + sha256Size
      · simp [DecryptPrivateKey, hctx, hdec, hlen, decryptFail]
      · have hkb : decryptKeyBuffers P ctx blob p salt v
            = some ⟨(deriveKey P p salt v).1, (deriveKey P p salt v).2⟩ := by
          simp [decryptKeyBuffers, hctx, hdec, hlen]
        by_cases hm : data.drop (data.length - sha256Size)
            = P.hmacSHA256 (deriveKey P p salt v).2 (data.take (data.length - sha256Size))
        · cases hb : aesNewCipher P (deriveKey P p salt v).1 with
          | none =>
            intro h
            simp [DecryptPrivateKey, hctx, hdec, hlen, hm, hb, decryptFail] at h
            exact ⟨h.1, h.2, hkb⟩
          | some block =>
            intro h
            simp [DecryptPrivateKey, hctx, hdec, hlen, hm, hb] at h
            exact ⟨h.1, h.2, hkb⟩
        · intro h
          simp [DecryptPrivateKey, hctx, hdec, hlen, hm, decryptFail] at h
          exact ⟨h.1, h.2, hkb⟩


theorem accountImportCmd_ok (P : Prims) (trimSpace : GoString → GoString)
    (isHexAddress : GoString → Bool) (db : Table) (aliasFlag : GoString) (ctx : Context)
    (saltRead ivRead : Option Bytes) (readKey readPass readConfirm : ReadResult)
    (h : (accountImportCmd P trimSpace isHexAddress db aliasFlag ctx saltRead ivRead readKey
      readPass readConfirm).err = none) :
    (accountImportCmd P trimSpace isHexAddress db aliasFlag ctx saltRead ivRead readKey readPass
        readConfirm).privateKeyBytes = zeroize readKey.buf ∧
    (accountImportCmd P trimSpace isHexAddress db aliasFlag ctx saltRead ivRead readKey readPass
        readConfirm).passphrase = zeroize readPass.buf ∧
    (accountImportCmd P trimSpace isHexAddress db aliasFlag ctx saltRead ivRead readKey readPass
        readConfirm).passphraseConfirm = zeroize readConfirm.buf := by
  unfold accountImportCmd at h ⊢
  simp only at h ⊢
  split at h
  · cases h
  · split at h
    · cases h
    · split at h
      · cases h
      · split at h
        · cases h
        · split at h
          · cases h
          · split at h
            · cases h
            · split at h
              · cases h
              · rename_i h1 h2 h3 h4 h5 _ h6 _ h7
                simp only [h1, h2, h3, h4, h5, h6, h7, if_false]
                exact ⟨rfl, rfl, rfl⟩

theorem infoCheckCmd_ok (P : Prims) (db : Table) (account : GoString) (ctx : Context)
    (readPass : ReadResult) (h : (infoCheckCmd P db account ctx readPass).err = none) :
    (infoCheckCmd P db account ctx readPass).passphrase = zeroize readPass.buf ∧
    ∃ key : GoString,
      (infoCheckCmd P db account ctx readPass).privateKeyBytes = zeroize key := by
  unfold infoCheckCmd at h ⊢
  split at h
  · cases h
  · cases h
  · rename_i acc hget
    simp only at h ⊢
    split at h
    · cases h
    · split at h
      · cases h
      · split at h
        · cases h
        · rename_i h1 _ _ h2 _ h3
          simp only [h1, h2, h3, if_false]
          exact ⟨rfl, _, rfl⟩


/-- C12 (as amended). On the return path of `accountImportCmd` on which
`EncryptPrivateKey` and `SaveAccount` return no error, every byte of the
private key buffer, of the passphrase buffer and of the confirmation buffer is
zero at return; on the return path of `infoCheckCmd` on which
`DecryptPrivateKey` returns no error, every byte of the passphrase buffer and
of the private key buffer is zero at return. `EncryptPrivateKey` and
`DecryptPrivateKey` do not zero the derived keys: in every run that calls
`deriveKey`, the slices `key` and `macKey` hold the derived cipher key and MAC
key when the function returns. -/
theorem C12_scrubbing (P : Prims) (trimSpace : GoString → GoString)
    (isHexAddress : GoString → Bool) (db : Table) (aliasFlag account : GoString)
    (ctx : Context) (saltRead ivRead : Option Bytes)
    (readKey readPass readConfirm : ReadResult) :
    ((accountImportCmd P trimSpace isHexAddress db aliasFlag ctx saltRead ivRead readKey
        readPass readConfirm).err = none →
      (accountImportCmd P trimSpace isHexAddress db aliasFlag ctx saltRead ivRead readKey
          readPass readConfirm).privateKeyBytes = List.replicate readKey.buf.length 0 ∧
      (accountImportCmd P trimSpace isHexAddress db aliasFlag ctx saltRead ivRead readKey
          readPass readConfirm).passphrase = List.replicate readPass.buf.length 0 ∧
      (accountImportCmd P trimSpace isHexAddress db aliasFlag ctx saltRead ivRead readKey
          readPass readConfirm).passphraseConfirm
        = List.replicate readConfirm.buf.length 0) ∧
    ((infoCheckCmd P db account ctx readPass).err = none →
      (infoCheckCmd P db account ctx readPass).passphrase
        = List.replicate readPass.buf.length 0 ∧
      ∀ b ∈ (infoCheckCmd P db account ctx readPass).privateKeyBytes, b = 0) ∧
    (∀ (k : GoString) (p : Bytes) (v : KeyVersion) (s : Bytes) (w : KeyVersion),
      Op.deriveKey s w ∈ (EncryptPrivateKey P ctx saltRead ivRead k p v).ops →
      encryptKeyBuffers P ctx saltRead k p v
        = some ⟨(deriveKey P p s v).1, (deriveKey P p s v).2⟩) ∧
    (∀ (blob : GoString) (p salt : Bytes) (v : KeyVersion) (s : Bytes) (w : KeyVersion),
      Op.deriveKey s w ∈ (DecryptPrivateKey P ctx blob p salt v).ops →
      decryptKeyBuffers P ctx blob p salt v
        = some ⟨(deriveKey P p salt v).1, (deriveKey P p salt v).2⟩) := by
  refine ⟨?_, ?_, ?_, ?_⟩
  · intro h
    obtain ⟨h1, h2, h3⟩ := accountImportCmd_ok P trimSpace isHexAddress db aliasFlag ctx
      saltRead ivRead readKey readPass readConfirm h
    rw [h1, h2, h3, zeroize_eq, zeroize_eq, zeroize_eq]
    exact ⟨rfl, rfl, rfl⟩
  · intro h
    obtain ⟨h1, key, h2⟩ := infoCheckCmd_ok P db account ctx readPass h
    rw [h1, h2, zeroize_eq, zeroize_eq]
    exact ⟨rfl, fun b hb => List.eq_of_mem_replicate hb⟩
  · intro k p v s w h
    exact (encryptKeyBuffers_of_ops P ctx saltRead ivRead k p v s w h).2.2
  · intro blob p salt v s w h
    exact (decryptKeyBuffers_of_ops P ctx blob p salt v s w h).2.2

set_option maxRecDepth 100000 in
/-- An import of the sample key under the alias `me`, then a check of `me`. -/
theorem C12_scrubbing_witness :
    (accountImportCmd toyPrimsAddr asciiTrimSpace IsHexAddress [] (ascii "me") liveCtx
      (some sampleSalt) (some sampleIV) readSampleKey readSamplePass readSamplePass).err
      = none ∧
    (accountImportCmd toyPrimsAddr asciiTrimSpace IsHexAddress [] (ascii "me") liveCtx
      (some sampleSalt) (some sampleIV) readSampleKey readSamplePass
      readSamplePass).privateKeyBytes = List.replicate 64 0 ∧
    (accountImportCmd toyPrimsAddr asciiTrimSpace IsHexAddress [] (ascii "me") liveCtx
      (some sampleSalt) (some sampleIV) readSampleKey readSamplePass readSamplePass).passphrase
      = List.replicate 8 0 ∧
    (infoCheckCmd toyPrimsAddr
      (accountImportCmd toyPrimsAddr asciiTrimSpace IsHexAddress [] (ascii "me") liveCtx
        (some sampleSalt) (some sampleIV) readSampleKey readSamplePass readSamplePass).db
      (ascii "me") liveCtx readSamplePass).passphrase = List.replicate 8 0 :=
  have h := C12_scrubbing toyPrimsAddr asciiTrimSpace IsHexAddress [] (ascii "me") (ascii "me")
    liveCtx (some sampleSalt) (some sampleIV) readSampleKey readSamplePass readSamplePass
  have h1 := h.1 (by decide)
  have h2 := (C12_scrubbing toyPrimsAddr asciiTrimSpace IsHexAddress
    (accountImportCmd toyPrimsAddr asciiTrimSpace IsHexAddress [] (ascii "me") liveCtx
      (some sampleSalt) (some sampleIV) readSampleKey readSamplePass readSamplePass).db
    (ascii "me") (ascii "me") liveCtx (some sampleSalt) (some sampleIV) readSampleKey
    readSamplePass readSamplePass).2.1 (by decide)
  ⟨by decide, h1.1, h1.2.1, h2.1⟩

set_option maxRecDepth 100000 in
/-- C12 (as stated) fails. When `EncryptPrivateKey` returns the sample blob
without error, its slices `key` and `macKey` hold the derived keys, which are
not zero. In `accountImportCmd`, when the confirmation differs, and when
`EncryptPrivateKey` rejects the zero scalar, the command returns with the
passphrase and the private key still in their buffers; in `infoCheckCmd`, when
`DecryptPrivateKey` fails on a wrong passphrase, the command returns with the
passphrase still in its buffer. -/
theorem C12_counterexample :
    ((EncryptPrivateKey toyPrims liveCtx (some sampleSalt) (some sampleIV) sampleKey
        samplePass KeyVersion1).ret.err = none ∧
      encryptKeyBuffers toyPrims liveCtx (some sampleSalt) sampleKey samplePass KeyVersion1
        = some ⟨(deriveKey toyPrims samplePass sampleSalt KeyVersion1).1,
            (deriveKey toyPrims samplePass sampleSalt KeyVersion1).2⟩ ∧
      (deriveKey toyPrims samplePass sampleSalt KeyVersion1).1 ≠ List.replicate 32 0 ∧
      (deriveKey toyPrims samplePass sampleSalt KeyVersion1).2 ≠ List.replicate 32 0) ∧
    accountImportCmd toyPrimsAddr asciiTrimSpace IsHexAddress [] (ascii "me") liveCtx
        (some sampleSalt) (some sampleIV) readSampleKey readSamplePass readWrongPass
      = ⟨sampleKey, samplePass, wrongPass, [], some .passphrasesDoNotMatch⟩ ∧
    accountImportCmd toyPrimsAddr asciiTrimSpace IsHexAddress [] (ascii "me") liveCtx
        (some sampleSalt) (some sampleIV) readZeroKey readSamplePass readSamplePass
      = ⟨zeroKey, samplePass, samplePass, [], some (.encrypt .parseKey)⟩ ∧
    infoCheckCmd toyPrimsAddr
        (accountImportCmd toyPrimsAddr asciiTrimSpace IsHexAddress [] (ascii "me") liveCtx
          (some sampleSalt) (some sampleIV) readSampleKey readSamplePass readSamplePass).db
        (ascii "me") liveCtx readWrongPass
      = ⟨wrongPass, [], some (.decrypt .hmacFailed)⟩ := by
  decide

end Syncora
